import Mathlib

/-!
Verification of the stk-details enrichment pipeline against its specification.

The JavaScript sources are shallowly embedded:
* JS strings are modelled as `String` / `List Char`;
* JS numbers are modelled as `ℚ` (the code only ever produces finite numbers:
  every `NaN`/`Infinity` is normalized to `null`, which we model as `none`);
* `null`/`undefined` values are modelled with `Option`;
* JS objects used as string-keyed maps are modelled as functions
  `String → Option β` built by pointwise update;
* asynchronous results are modelled by passing fetch outcomes as explicit
  function arguments, and a thrown exception is modelled with `Except`.
-/

namespace StkDetails

/-- The double-quote character (JS `'"'`). -/
def dq : Char := Char.ofNat 34

/-- Whitespace as trimmed by JS `String.prototype.trim` / matched by `\s`
(restricted to the ASCII whitespace actually occurring in the data). -/
def isWS (c : Char) : Bool :=
  c = ' ' || c = '\t' || c = '\n' || c = '\r'

/-- Model of JS `s.trim()` on a character list. -/
def jsTrim (l : List Char) : List Char :=
  ((l.dropWhile isWS).reverse.dropWhile isWS).reverse

/-- Model of JS `s.trim()` on `String`. -/
def jsTrimS (s : String) : String := ⟨jsTrim s.data⟩

/-- Model of JS `s.toUpperCase()` (ASCII, which covers the ticker data). -/
def jsUpperS (s : String) : String := ⟨s.data.map Char.toUpper⟩

/-- Model of JS `s.toLowerCase()` (ASCII). -/
def jsLowerS (s : String) : String := ⟨s.data.map Char.toLower⟩

/-- `leadsWith needle hay` = `hay` starts with `needle`. -/
def leadsWith : List Char → List Char → Bool
  | [], _ => true
  | _ :: _, [] => false
  | a :: as, b :: bs => a = b && leadsWith as bs

/-- Model of JS `hay.includes(needle)` (substring containment). -/
def strContains : List Char → List Char → Bool
  | [], needle => needle.isEmpty
  | c :: t, needle => leadsWith needle (c :: t) || strContains t needle

/-- `String` version of `strContains`. -/
def strContainsS (hay needle : String) : Bool := strContains hay.data needle.data

/-- Characters admitted by the ticker sanity regex `^[A-Z0-9.\-]{1,10}$`. -/
def allowedTickerChar (c : Char) : Bool :=
  ( 'A' ≤ c && c ≤ 'Z') || ( '0' ≤ c && c ≤ '9') || c = '.' || c = '-'

/-- Test of the regex `^[A-Z0-9.\-]{1,10}$` from `normalizeTickerCandidate`. -/
def tickerShape (l : List Char) : Bool :=
  decide (1 ≤ l.length) && decide (l.length ≤ 10) && l.all allowedTickerChar

/-- `apiHandlers.js` `normalizeTickerCandidate`, shared first stage:
`s.trim()`; early return on empty; strip wrapping double quotes
(`s.replace(/^"+|"+$/g, "")`); truncate at the first remaining double quote
(`s.slice(0, s.indexOf('"'))` when present, which is `takeWhile (· ≠ dq)`);
`s.trim()`; early return on empty.  `none` models the early `return ""`. -/
def preClean (l : List Char) : Option (List Char) :=
  let s := jsTrim l
  if s = [] then none
  else
    let s1 := (s.dropWhile (· = dq)).reverse.dropWhile (· = dq) |>.reverse
    let s2 := jsTrim (s1.takeWhile (· ≠ dq))
    if s2 = [] then none else some s2

/-- The suffix after the last `':'` of `l` (all of `l` when `l` has no colon),
i.e. JS `s.slice(s.lastIndexOf(":") + 1)`. -/
def afterLastColon (l : List Char) : List Char :=
  (l.reverse.takeWhile (· ≠ ':')).reverse

/-- `normalizeTickerCandidate`, shared last stage: uppercase, reject the
literal header words `TICKER`/`SYMBOL`, reject anything that fails the
ticker regex, otherwise accept. -/
def finishCand (s : List Char) : List Char :=
  let cand := s.map Char.toUpper
  if cand = "TICKER".data ∨ cand = "SYMBOL".data then []
  else if tickerShape cand then cand else []

/-- `apiHandlers.js` lines 206-230, `normalizeTickerCandidate`.  The colon
step is the literal code: `colonIdx = s.lastIndexOf(":")`, and only when
`colonIdx >= 0 && colonIdx < s.length - 1` (a colon exists and is not the
final character, i.e. the suffix after the last colon is nonempty) is
`s = s.slice(colonIdx + 1).trim()` taken. -/
def normalizeTickerCandidate (l : List Char) : List Char :=
  match preClean l with
  | none => []
  | some s =>
      let s2 := if ( ':' ∈ s) ∧ afterLastColon s ≠ [] then jsTrim (afterLastColon s) else s
      finishCand s2

/-- The normalization pipeline exactly as the specification words it
(claim C5): trim; strip wrapping quotes; truncate at an embedded quote;
trim again; "if a colon is present, keep only the substring after the last
colon"; uppercase; reject `TICKER`/`SYMBOL`; reject unless the result
matches `^[A-Z0-9.\-]{1,10}$`.  Note: no trim after the colon step. -/
def specOrigPipeline (l : List Char) : List Char :=
  match preClean l with
  | none => []
  | some s =>
      let s2 := if ( ':' ∈ s) then afterLastColon s else s
      finishCand s2

/-- The amended pipeline: as `specOrigPipeline`, but the substring kept
after the last colon is trimmed again before the uppercase/validation
steps (this is the only change the counterexample forces). -/
def specAmendedPipeline (l : List Char) : List Char :=
  match preClean l with
  | none => []
  | some s =>
      let s2 := if ( ':' ∈ s) then jsTrim (afterLastColon s) else s
      finishCand s2

/-! ### CSV ticker extraction (`apiHandlers.js` lines 172-285)

`Papa.parse` is an external library; its two possible outcomes are passed in
as explicit arguments: `p1` models `first.data` after the
`filter((r) => r && typeof r === "object")` step (a list of row objects,
each an ordered association list of column name to cell, where a cell is
`none` for `undefined`/`null`), and `p2` models `second.data` (a list of
row arrays). -/

/-- A parsed row object: ordered association of column name to cell value. -/
def RowObj : Type := List (String × Option String)

/-- Model of JS `row[name]` (first matching key; `none` = `undefined`). -/
def rowGet (row : RowObj) (k : String) : Option String :=
  (List.find? (fun kv => kv.1 = k) row).bind (·.2)

/-- `normalizeTickerCandidate` applied to a possibly `undefined` cell
(`v == null` yields the empty string). -/
def normalizeCell (v : Option String) : String :=
  match v with
  | none => ""
  | some s => ⟨normalizeTickerCandidate s.data⟩

/-- JS `Array.from(new Set(xs))`: deduplicate keeping first occurrences. -/
def firstDedup (l : List String) : List String :=
  l.foldl (fun acc x => if x ∈ acc then acc else acc ++ [x]) []

/-- `apiHandlers.js` lines 172-204, `detectTickerColumnIndex`. -/
def detectTickerColumnIndex (rows : List RowObj) (columns : List String) : ℕ :=
  if columns = [] then 0
  else
    let normalized := columns.map (fun c => jsLowerS (jsTrimS c))
    let preferred : List String := ["ticker", "symbol", "tick", "sym", "symbols", "tickers"]
    match preferred.findSome?
        (fun p => normalized.findIdx? (fun c => c = p || strContainsS c p)) with
    | some idx => idx
    | none =>
        -- score columns by how many of the first 200 row values normalize
        -- to a plausible ticker; highest count wins, ties to lowest index
        -- (bestScore starts at -1, update on strictly greater score)
        let scores := columns.map (fun name =>
          (rows.take 200).countP (fun row => normalizeCell (rowGet row name) != ""))
        (scores.enum.foldl
          (fun (best : ℕ × Int) p =>
            if (p.2 : Int) > best.2 then (p.1, (p.2 : Int)) else best)
          (0, -1)).1

/-- Result shape of `parseCsvForTickers`. -/
structure CsvResult where
  columns : List String
  tickerColumnIndex : ℕ
  tickerColumnName : String
  tickers : List String
  deriving DecidableEq, Repr

/-- `apiHandlers.js` lines 232-285, `parseCsvForTickers`.  `p1` and `p2` are
the outcomes of the two `Papa.parse` calls (header and header-less). -/
def parseCsvForTickers (p1 : List RowObj) (p2 : List (List (Option String))) :
    CsvResult :=
  let rows1 := p1
  let cols1 : List String := match rows1.head? with
    | some r => r.map (·.1)     -- Object.keys(rows[0])
    | none => []
  -- fallback when no header columns were found
  let pair : List RowObj × List String :=
    if cols1 = [] then
      match p2 with
      | [] => (rows1, cols1)
      | _ =>
          let width := (p2.map (·.length)).foldl max 0
          let cols := (List.range width).map (fun i => "col_" ++ toString i)
          let rows : List RowObj := p2.map (fun r =>
            (List.range width).map (fun i => ("col_" ++ toString i, (r.get? i).join)))
          (rows, cols)
    else (rows1, cols1)
  let rows := pair.1
  let columns := pair.2
  let idx := detectTickerColumnIndex rows columns
  let name := match columns.get? idx with
    | some n => n
    | none => ""                -- columns[idx] || ""
  let tickers := firstDedup (rows.filterMap (fun row =>
    let t := normalizeCell (rowGet row name)
    if t = "" then none else some t))
  { columns := columns, tickerColumnIndex := idx, tickerColumnName := name,
    tickers := tickers }

/-! ### Base rank feed normalization (`sctrService.js`, `normalizeRecords`)

Raw JSON items have loosely-typed fields.  Each field is modelled as
`Option String`: `none` covers both an absent key and a `null` value
(observationally equivalent here: `toString(null) = ""` and a `null` date
never updates the carried-forward date), and a JSON number is represented
by its decimal rendering, which `Number(String(v))` maps back to itself. -/

/-- A raw item of the upstream JSON array. -/
structure RawItem where
  date : Option String := none
  symbol : Option String := none
  name : Option String := none
  SCTR : Option String := none
  delta : Option String := none
  close : Option String := none
  marketCap : Option String := none
  vol : Option String := none
  industry : Option String := none
  sector : Option String := none
  deriving DecidableEq, Repr

/-- A normalized rank record (`normalizeRecords` output shape). -/
structure Rec where
  date : String := ""
  symbol : String := ""
  name : String := ""
  SCTR : Option ℚ := none
  delta : Option ℚ := none
  close : Option ℚ := none
  marketCap : Option ℚ := none
  vol : Option ℤ := none
  industry : String := ""
  sector : String := ""
  deriving DecidableEq, Repr

/-- `sctrService.js` `toString`: `null`/`undefined` to `""`, else trim. -/
def toStringV (v : Option String) : String :=
  match v with
  | none => ""
  | some s => jsTrimS s

/-- Digits of a decimal numeral to a natural number. -/
def digitsToNat (l : List Char) : ℕ :=
  l.foldl (fun a c => a * 10 + (c.toNat - 48)) 0

/-- Model of JS `Number(s)` on a trimmed, nonempty string, returning `some q`
exactly for finite results.  It parses sign, decimal digits with an optional
fractional part and an optional exponent; `Infinity` and the rare
hex/binary/octal literal forms map to `none` (the code turns every
non-finite result into `null` anyway, and the feed carries plain decimals). -/
def parseJsNumber (l : List Char) : Option ℚ :=
  let sgnRest : ℚ × List Char :=
    match l with
    | '+' :: r => (1, r)
    | '-' :: r => (-1, r)
    | r => (1, r)
  let sgn := sgnRest.1
  let rest := sgnRest.2
  let mant := rest.takeWhile (fun c => !(c = 'e' || c = 'E'))
  let expPart := rest.drop mant.length
  let expVal : Option ℤ :=
    match expPart with
    | [] => some 0
    | _ :: es =>
        let esgnRest : ℤ × List Char :=
          match es with
          | '+' :: r => (1, r)
          | '-' :: r => (-1, r)
          | r => (1, r)
        if esgnRest.2 ≠ [] ∧ esgnRest.2.all Char.isDigit then
          some (esgnRest.1 * (digitsToNat esgnRest.2 : ℤ))
        else none
  let ip := mant.takeWhile (· ≠ '.')
  let fpRest := mant.drop ip.length
  let fpOk : Option (List Char) :=
    match fpRest with
    | [] => some []
    | c :: r => if c = '.' ∧ ¬ ( '.' ∈ r) then some r else none
  match fpOk, expVal with
  | some fp, some e =>
      if (ip ≠ [] ∨ fp ≠ []) ∧ ip.all Char.isDigit ∧ fp.all Char.isDigit then
        some (sgn * ((digitsToNat ip : ℚ) + (digitsToNat fp : ℚ) / (10 : ℚ) ^ fp.length)
          * (10 : ℚ) ^ e)
      else none
  | _, _ => none

/-- `Number(s)` on a `String`. -/
def jsNumberQ (s : String) : Option ℚ := parseJsNumber s.data

/-- `sctrService.js` `toNumber`: empty after trim or non-finite parse is
`null`, else the parsed value. -/
def toNumberV (v : Option String) : Option ℚ :=
  let s := toStringV v
  if s = "" then none else jsNumberQ s

/-- `sctrService.js` `toInt`: like `toNumber` followed by `Math.trunc`
(truncation toward zero). -/
def toIntV (v : Option String) : Option ℤ :=
  (toNumberV v).map (fun q => q.num.tdiv q.den)

/-- Month-abbreviation table of `sctrService.js` `monthToNum`
(case-sensitive keys, as in the code). -/
def monthTable : List (List Char × List Char) :=
  [("Jan".data, "01".data), ("Feb".data, "02".data), ("Mar".data, "03".data),
   ("Apr".data, "04".data), ("May".data, "05".data), ("Jun".data, "06".data),
   ("Jul".data, "07".data), ("Aug".data, "08".data), ("Sep".data, "09".data),
   ("Oct".data, "10".data), ("Nov".data, "11".data), ("Dec".data, "12".data)]

/-- `monthToNum`: look up the first three characters in the table
(`""`, modelled as `none`, when absent). -/
def monthToNum (mon : List Char) : Option (List Char) :=
  (monthTable.find? (fun p => p.1 = mon.take 3)).map (·.2)

/-- `String(day).padStart(2, "0")`. -/
def padDay (d : List Char) : List Char :=
  List.replicate (2 - d.length) '0' ++ d

/-- The regex `^\d{4}-\d{2}-\d{2}$`. -/
def isoShape (t : List Char) : Bool :=
  match t with
  | [a, b, c, d, e, f, g, h, i, j] =>
      a.isDigit && b.isDigit && c.isDigit && d.isDigit && e = '-' &&
      f.isDigit && g.isDigit && h = '-' && i.isDigit && j.isDigit
  | _ => false

/-- Match of the regex `^(\d{1,2})\s+([A-Za-z]{3})\s+(\d{4})$`, returning
the three capture groups.  Greedy `takeWhile` runs are equivalent to the
regex here because each character class is disjoint from what must follow. -/
def dmyMatch (t : List Char) : Option (List Char × List Char × List Char) :=
  let d := t.takeWhile Char.isDigit
  let r1 := t.drop d.length
  let w1 := r1.takeWhile isWS
  let r2 := r1.drop w1.length
  let mon := r2.takeWhile Char.isAlpha
  let r3 := r2.drop mon.length
  let w2 := r3.takeWhile isWS
  let r4 := r3.drop w2.length
  let y := r4.takeWhile Char.isDigit
  let r5 := r4.drop y.length
  if 1 ≤ d.length ∧ d.length ≤ 2 ∧ w1 ≠ [] ∧ mon.length = 3 ∧ w2 ≠ [] ∧
      y.length = 4 ∧ r5 = [] then some (d, mon, y) else none

/-- `sctrService.js` `parseDate`: ISO dates pass through, `D Mon YYYY`
converts to `YYYY-MM-DD`, anything else yields `""` (here `[]`). -/
def parseDateChars (t0 : List Char) : List Char :=
  let t := jsTrim t0
  if t = [] then []
  else if isoShape t then t
  else
    match dmyMatch t with
    | some (d, mon, y) =>
        match monthToNum mon with
        | some mm => y ++ '-' :: (mm ++ '-' :: padDay d)
        | none => []
    | none => []

/-- `parseDate` on `String`. -/
def parseDateS (s : String) : String := ⟨parseDateChars s.data⟩

/-- The record pushed for one raw item, given the current carried-forward
date `asOf`: `d = parseDate(toString(item.date)) || asOfDate || ""`. -/
def mkRecord (asOf : String) (i : RawItem) : Rec :=
  { date :=
      (let p := parseDateS (toStringV i.date)
       if p = "" then asOf else p),
    symbol := toStringV i.symbol,
    name := toStringV i.name,
    SCTR := toNumberV i.SCTR,
    delta := toNumberV i.delta,
    close := toNumberV i.close,
    marketCap := toNumberV i.marketCap,
    vol := toIntV i.vol,
    industry := toStringV i.industry,
    sector := toStringV i.sector }

/-- One loop step's update of the carried-forward date: when the item has a
date whose trimmed text is nonempty, `asOfDate = parseDate(d) || asOfDate`. -/
def asOfStep (asOf : String) (i : RawItem) : String :=
  match i.date with
  | none => asOf
  | some s =>
      let d := jsTrimS s
      if d = "" then asOf
      else
        let p := parseDateS d
        if p = "" then asOf else p

/-- The `normalizeRecords` loop with explicit carried-forward date.  An item
without a (nonempty, after `toString`) symbol is skipped; the update of the
carried-forward date happens first, exactly as in the source (an item with a
`date` key but no `symbol` key only updates the date, which coincides with
being skipped by the empty-symbol test in this merged model). -/
def normGo (asOf : String) : List RawItem → List Rec
  | [] => []
  | i :: rest =>
      let asOf2 := asOfStep asOf i
      if toStringV i.symbol = "" then normGo asOf2 rest
      else mkRecord asOf2 i :: normGo asOf2 rest

/-- `sctrService.js` lines 270-296, `normalizeRecords`. -/
def normalizeRecords (raw : List RawItem) : List Rec := normGo "" raw

/-- The claim-side "most recently seen date earlier in the feed": the last
parsable date among the items before the current one (empty when none). -/
def specLastDate (pre : List RawItem) : String :=
  pre.foldl asOfStep ""

/-! ### Peer-group statistics (`apiHandlers.js` lines 287-350) -/

/-- The per-group accumulator `{ sum, count, values }`. -/
structure GAcc where
  sum : ℚ
  count : ℕ
  values : List ℚ
  deriving DecidableEq, Repr

/-- Pointwise update of a function-typed string map. -/
def updF {β : Type} (m : String → Option β) (k : String) (v : β) :
    String → Option β :=
  fun x => if x = k then some v else m x

/-- One accumulation step of the stats loop for one grouping key projection
(`record.industry` or `record.sector`): skip records with `null` SCTR, skip
empty (trimmed) group names, else add the score to the group's
sum/count/values. -/
def statStep (proj : Rec → String) (m : String → Option GAcc) (r : Rec) :
    String → Option GAcc :=
  match r.SCTR with
  | none => m
  | some q =>
      let k := jsTrimS (proj r)
      if k = "" then m
      else
        match m k with
        | none => updF m k ⟨q, 1, [q]⟩
        | some a => updF m k ⟨a.sum + q, a.count + 1, a.values ++ [q]⟩

/-- The accumulation loop of `calculateIndustrySectorStats` for one grouping
key (the source fills both group maps in a single pass over the records;
per key the result is identical to this one-projection pass). -/
def statAcc (proj : Rec → String) (recs : List Rec) : String → Option GAcc :=
  recs.foldl (statStep proj) (fun _ => none)

/-- A finished stats entry `{ avg, count, min, max, median }`. -/
structure StatsEntry where
  avg : ℚ
  count : ℕ
  min : ℚ
  max : ℚ
  median : ℚ
  deriving DecidableEq, Repr

/-- Turning an accumulator into a stats entry: ascending sort of the values
(`[...values].sort((a, b) => a - b)`), then `avg = sum / count`,
`min = sorted[0]`, `max = sorted[sorted.length - 1]`,
`median = sorted[Math.floor(sorted.length / 2)]`. -/
def mkStatsEntry (a : GAcc) : StatsEntry :=
  let sorted := a.values.insertionSort (· ≤ ·)
  { avg := a.sum / (a.count : ℚ),
    count := a.count,
    min := sorted.headI,
    max := sorted.getLastD 0,
    median := sorted.getD (sorted.length / 2) 0 }

/-- Both stats maps. -/
structure SCStats where
  industries : String → Option StatsEntry
  sectors : String → Option StatsEntry

/-- `apiHandlers.js` lines 287-350, `calculateIndustrySectorStats` (the
`stats.count > 0` guard is kept although accumulated entries always have a
positive count). -/
def calculateIndustrySectorStats (allRecords : List Rec) : SCStats :=
  { industries := fun k =>
      (statAcc (·.industry) allRecords k).bind
        (fun a => if a.count > 0 then some (mkStatsEntry a) else none),
    sectors := fun k =>
      (statAcc (·.sector) allRecords k).bind
        (fun a => if a.count > 0 then some (mkStatsEntry a) else none) }

/-- The scores contributing to group `g` under projection `proj`: the
non-`null` SCTR values of the records whose trimmed group name is `g`,
in record order. -/
def groupScores (proj : Rec → String) (recs : List Rec) (g : String) : List ℚ :=
  recs.filterMap (fun r =>
    match r.SCTR with
    | none => none
    | some q => if jsTrimS (proj r) = g then some q else none)

/-- Claim-side minimum of a list of scores. -/
def specMin : List ℚ → ℚ
  | [] => 0
  | x :: xs => xs.foldl min x

/-- Claim-side maximum of a list of scores. -/
def specMax : List ℚ → ℚ
  | [] => 0
  | x :: xs => xs.foldl max x

/-- The element at position `⌊n / 2⌋` of the ascending-sorted scores (the
upper middle element; this is what the implementation's `median` field
holds). -/
def specUpperMedian (l : List ℚ) : ℚ :=
  let s := l.insertionSort (· ≤ ·)
  s.getD (s.length / 2) 0

/-- The statistical median: middle element for odd length, mean of the two
middle elements for even length. -/
def specMedian (l : List ℚ) : ℚ :=
  let s := l.insertionSort (· ≤ ·)
  if l.length % 2 = 1 then s.getD (l.length / 2) 0
  else (s.getD (l.length / 2 - 1) 0 + s.getD (l.length / 2) 0) / 2

/-- The stats entry as the specification describes it (with the amended
median reading), `none` for the empty group name or an empty group. -/
def specGroupEntry (proj : Rec → String) (recs : List Rec) (g : String) :
    Option StatsEntry :=
  if g = "" then none
  else
    let vs := groupScores proj recs g
    if vs = [] then none
    else some
      { avg := vs.sum / (vs.length : ℚ),
        count := vs.length,
        min := specMin vs,
        max := specMax vs,
        median := specUpperMedian vs }

/-! ### Relative strength (`apiHandlers.js` lines 352-399)

`calculateRelativeStrength` is applied to enriched records; it reads only
`SCTR`, `industry` and `sector`.  The optional
`finvizToStockChartsMap` is `fmap`. -/

/-- An enriched record: a `Rec` plus source tags and the enrichment fields
added by the orchestrator. -/
structure ERec extends Rec where
  industrySource : String := ""
  sectorSource : String := ""
  industryRS : Option ℚ := none
  sectorRS : Option ℚ := none
  industryAboveMA50 : Option Bool := none
  industryPercentAboveMA50 : Option ℚ := none
  deriving DecidableEq, Repr

/-- Result pair of `calculateRelativeStrength`. -/
structure RSResult where
  industryRS : Option ℚ
  sectorRS : Option ℚ
  deriving DecidableEq, Repr

/-- The industry name used for the stats lookup: the record's trimmed
industry, remapped through `finvizToStockChartsMap` when that map is
present and has the name. -/
def effectiveIndustry (r : ERec) (fmap : Option (String → Option String)) :
    String :=
  let ind0 := jsTrimS r.industry
  match fmap with
  | none => ind0
  | some m =>
      match m ind0 with
      | some mapped => mapped
      | none => ind0

/-- `apiHandlers.js` lines 352-399, `calculateRelativeStrength` (the
source's `else if (count === 1) RS = null` branch is a no-op, since `RS`
is already `null` there; debug logging is dropped). -/
def calculateRelativeStrength (r : ERec) (stats : SCStats)
    (fmap : Option (String → Option String)) : RSResult :=
  match r.SCTR with
  | none => { industryRS := none, sectorRS := none }
  | some sctr =>
      let industry := effectiveIndustry r fmap
      let sector := jsTrimS r.sector
      let industryRS : Option ℚ :=
        if industry ≠ "" then
          match stats.industries industry with
          | some e =>
              if e.avg > 0 ∧ e.count > 1 then
                some ((sctr - e.avg) / e.avg * 100)
              else none
          | none => none
        else none
      let sectorRS : Option ℚ :=
        if sector ≠ "" then
          match stats.sectors sector with
          | some e =>
              if e.avg > 0 ∧ e.count > 1 then
                some ((sctr - e.avg) / e.avg * 100)
              else none
          | none => none
        else none
      { industryRS := industryRS, sectorRS := sectorRS }

/-- The relative-strength pair as the specification describes it:
`(score - avg) / avg * 100`, and `null` exactly when the score is `null`,
the (effective) group name is empty or absent from the stats, the group's
average is non-positive, or the group has only one member. -/
def specRelStrength (r : ERec) (stats : SCStats)
    (fmap : Option (String → Option String)) : RSResult :=
  match r.SCTR with
  | none => { industryRS := none, sectorRS := none }
  | some sctr =>
      let industry := effectiveIndustry r fmap
      let sector := jsTrimS r.sector
      let iRS : Option ℚ :=
        if industry = "" then none
        else
          match stats.industries industry with
          | none => none
          | some e =>
              if e.avg ≤ 0 ∨ e.count = 1 then none
              else some ((sctr - e.avg) / e.avg * 100)
      let sRS : Option ℚ :=
        if sector = "" then none
        else
          match stats.sectors sector with
          | none => none
          | some e =>
              if e.avg ≤ 0 ∨ e.count = 1 then none
              else some ((sctr - e.avg) / e.avg * 100)
      { industryRS := iRS, sectorRS := sRS }

/-- Lexicographic character-list comparison (at most): the model of
`a.localeCompare(b) <= 0` for the plain ASCII strings (tickers, ISO dates)
this code compares. -/
def charListLe : List Char → List Char → Bool
  | [], _ => true
  | _ :: _, [] => false
  | a :: as, b :: bs => if a < b then true else if b < a then false else charListLe as bs

/-- String version of `charListLe`: the lexicographic at-most order. -/
def strLe (a b : String) : Prop := charListLe a.data b.data = true

instance : DecidableRel strLe := fun a b =>
  inferInstanceAs (Decidable (charListLe a.data b.data = true))

/-! ### Industry 50-day moving average (`maService.js`)

`fetchHistoricalPrices` performs network I/O; it is abstracted as a function
`fetch : String → Option (List Price)` giving each symbol's fetched daily
closes (`none` models every failure path of the fetch, including the
source's own `< 50 valid closes` rejection; the calculators re-check the
length themselves, as in the code).  Price entries always carry a non-null
close, since the fetcher drops null closes/timestamps. -/

/-- One daily close. -/
structure Price where
  date : String
  close : ℚ
  deriving DecidableEq, Repr

/-- Result shape of the MA50 calculators. -/
structure MAData where
  currentIndex : ℚ
  ma50 : ℚ
  aboveMA : Bool
  percentAboveMA50 : ℚ
  source : String
  stocksUsed : Option ℕ := none
  totalStocks : Option ℕ := none
  deriving DecidableEq, Repr

/-- `maService.js` `calculateMA`: `null` when fewer than `period` prices,
else the mean of the last `period` closes (`prices.slice(-period)` is
`drop (length - period)`; the code's `(p.close || 0)` equals `p.close`
since a zero close contributes zero either way). -/
def calculateMA (prices : List Price) (period : ℕ) : Option ℚ :=
  if prices.length < period then none
  else some
    (((prices.drop (prices.length - period)).foldl (fun acc p => acc + p.close) 0)
      / (period : ℚ))

/-- `maService.js` lines 1299-1319, `calculateIndustryMA50FromETF`. -/
def calculateIndustryMA50FromETF (fetch : String → Option (List Price))
    (etfSymbol : String) : Option MAData :=
  match fetch etfSymbol with
  | none => none
  | some prices =>
      if prices.length < 50 then none
      else
        match calculateMA prices 50, prices.getLast? with
        | some ma50, some lastP =>
            some { currentIndex := lastP.close, ma50 := ma50,
                   aboveMA := decide (lastP.close > ma50),
                   percentAboveMA50 := (lastP.close - ma50) / ma50 * 100,
                   source := "ETF" }
        | _, _ => none

/-- `industryRecords[0]?.industry` (empty string models both an absent
first record and an empty industry, which are equally falsy). -/
def industryLabelOf (industryRecords : List ERec) : String :=
  match industryRecords.head? with
  | some r => r.industry
  | none => ""

/-- `allRecords.filter((r) => String(r.industry || "").trim() === industryName)`. -/
def allIndustryStocksOf (industryRecords allRecords : List ERec) : List ERec :=
  allRecords.filter (fun r => jsTrimS r.industry == industryLabelOf industryRecords)

/-- Sample up to 20 stocks (all of them when the industry has at most 20). -/
def stocksToCheckOf (industryRecords allRecords : List ERec) : List ERec :=
  let a := allIndustryStocksOf industryRecords allRecords
  if a.length ≤ 20 then a else a.take 20

/-- The per-stock price histories actually gathered: skip empty symbols,
keep only fetches that produced at least 50 closes. -/
def stockPricesOf (fetch : String → Option (List Price))
    (industryRecords allRecords : List ERec) : List (String × List Price) :=
  (stocksToCheckOf industryRecords allRecords).filterMap (fun st =>
    let sym := jsTrimS st.symbol
    if sym = "" then none
    else
      match fetch sym with
      | some ps => if 50 ≤ ps.length then some (sym, ps) else none
      | none => none)

/-- The distinct dates over all gathered price lists, ascending (JS
`Array.from(dateSet).sort()` on date strings is lexicographic). -/
def basketDatesOf (fetch : String → Option (List Price))
    (industryRecords allRecords : List ERec) : List String :=
  (firstDedup ((stockPricesOf fetch industryRecords allRecords).flatMap
    (fun sp => sp.2.map (·.date)))).insertionSort strLe

/-- The closes contributed on date `d`: for each gathered stock, the close
of its first price entry with that date, when present. -/
def contributorsAt (sp : List (String × List Price)) (d : String) : List ℚ :=
  sp.filterMap (fun s => (s.2.find? (fun p => p.date == d)).map (·.close))

/-- The synthesized basket index: for each date, the equal-weighted average
of the closes of the stocks that have a price on that date. -/
def industryIndexOf (fetch : String → Option (List Price))
    (industryRecords allRecords : List ERec) : List Price :=
  (basketDatesOf fetch industryRecords allRecords).filterMap (fun d =>
    let ps := contributorsAt (stockPricesOf fetch industryRecords allRecords) d
    if ps = [] then none
    else some { date := d, close := ps.sum / (ps.length : ℚ) })

/-- `maService.js` lines 1321-1399, `calculateIndustryMA50FromStocks`
(the inter-request delay is timing behaviour and has no bearing on the
returned value). -/
def calculateIndustryMA50FromStocks (fetch : String → Option (List Price))
    (industryRecords allRecords : List ERec) : Option MAData :=
  let industryName := industryLabelOf industryRecords
  if industryName = "" then none
  else
    let allIndustryStocks := allIndustryStocksOf industryRecords allRecords
    if allIndustryStocks = [] then none
    else
      let stockPrices := stockPricesOf fetch industryRecords allRecords
      if stockPrices = [] then none
      else
        let dates := basketDatesOf fetch industryRecords allRecords
        if dates.length < 50 then none
        else
          let industryIndex := industryIndexOf fetch industryRecords allRecords
          if industryIndex.length < 50 then none
          else
            match calculateMA industryIndex 50, industryIndex.getLast? with
            | some ma50, some lastP =>
                some { currentIndex := lastP.close, ma50 := ma50,
                       aboveMA := decide (lastP.close > ma50),
                       percentAboveMA50 := (lastP.close - ma50) / ma50 * 100,
                       source := "calculated",
                       stocksUsed := some stockPrices.length,
                       totalStocks := some allIndustryStocks.length }
            | _, _ => none

/-- Claim-side trailing 50-sample simple moving average of a close series:
the arithmetic mean of its last 50 values. -/
def specTrailingAvg50 (closes : List ℚ) : ℚ :=
  (closes.drop (closes.length - 50)).sum / 50

/-! ### Enrichment orchestrator (`apiHandlers.js` lines 401-624)

External effects are passed as arguments: `alls` is the (successfully
fetched and normalized) full rank dataset, and `provF`/`provY` are the
outcomes of the Finviz/Yahoo batch lookups (`Except.error` models the
batch call throwing, which the source catches, leaving the map empty). -/

/-- One thrown JS error (the only kind the embedding needs). -/
inductive JsErr
  | referenceError (name : String)
  deriving DecidableEq, Repr

/-- The `industrySource` request parameter. -/
inductive IndustrySource
  | finviz
  | yahoo
  | stockcharts
  deriving DecidableEq, Repr

/-- A provider's industry/sector answer for one ticker. -/
structure ExtIS where
  industry : Option String := none
  sector : Option String := none
  source : Option String := none
  deriving DecidableEq, Repr

/-- JS truthiness of a nullable string (both `null` and `""` are falsy). -/
def jsTruthyS : Option String → Bool
  | none => false
  | some s => s != ""

/-- JS `a || b` for a nullable string `a` and string fallback `b`. -/
def jsOrS (o : Option String) (fb : String) : String :=
  match o with
  | some s => if s = "" then fb else s
  | none => fb

/-- `industrySectorData` after the source-selection step: provider entries
with a truthy industry or sector, empty on provider failure or for the
`stockcharts` (no-op) source. -/
def industrySectorDataOf (src : IndustrySource)
    (provF provY : Except Unit (String → Option ExtIS)) :
    String → Option ExtIS :=
  let keep : (String → Option ExtIS) → String → Option ExtIS := fun m t =>
    match m t with
    | some d => if jsTruthyS d.industry || jsTruthyS d.sector then some d else none
    | none => none
  match src with
  | .finviz =>
      match provF with
      | .ok m => keep m
      | .error _ => fun _ => none
  | .yahoo =>
      match provY with
      | .ok m => keep m
      | .error _ => fun _ => none
  | .stockcharts => fun _ => none

/-- Lines 463-482: override industry/sector from the external provider when
available, tagging the provenance. -/
def enrichOne (extMap : String → Option ExtIS) (r : Rec) : ERec :=
  match extMap (jsUpperS r.symbol) with
  | some d =>
      if jsTruthyS d.industry || jsTruthyS d.sector then
        { toRec := { r with industry := jsOrS d.industry r.industry,
                            sector := jsOrS d.sector r.sector },
          industrySource := jsOrS d.source "Yahoo",
          sectorSource := jsOrS d.source "Yahoo" }
      else
        { toRec := r, industrySource := "StockCharts", sectorSource := "StockCharts" }
  | none =>
      { toRec := r, industrySource := "StockCharts", sectorSource := "StockCharts" }

/-- Lines 503-517: first-seen-pair map from an enriched (provider) industry
name to the base dataset's industry name for the same symbol. -/
def buildFmap (alls : List Rec) (ers : List ERec) : String → Option String :=
  ers.foldl (fun m r =>
    let sym := jsUpperS r.symbol
    let fInd := jsTrimS r.industry
    match alls.find? (fun o => jsUpperS o.symbol == sym) with
    | some o =>
        if fInd ≠ "" then
          let scInd := jsTrimS o.industry
          if scInd ≠ "" ∧ fInd ≠ scInd ∧ (m fInd).isNone then updF m fInd scInd
          else m
        else m
    | none => m) (fun _ => none)

/-- The possible outcomes of one per-industry MA50 computation inside its
`try` block: racing past the 30s timeout, throwing, or completing with a
value (`calculateIndustryMA50` may itself complete with `null`). -/
inductive CompOutcome
  | timedOut
  | threw
  | completed (v : Option MAData)

/-- A settled promise as seen by `Promise.allSettled`: the per-industry task
fulfills with `null` (its catch handler's return) or with
`{ industry, data }`. -/
inductive Settled
  | fulfilled (v : Option (String × Option MAData))
  | rejected

/-- How the per-industry task's `try`/`catch` settles each outcome: a
timeout rejection and a thrown error are both caught and become a `null`
fulfillment; a completed computation fulfills with its industry and data. -/
def settleOf (industry : String) (o : CompOutcome) : Settled :=
  .fulfilled
    (match o with
     | .timedOut => none
     | .threw => none
     | .completed v => some (industry, v))

/-- One step of the settled-results collection loop: only a fulfilled value
that carries data adds an entry. -/
def collectStep (m : String → Option MAData) (s : Settled) :
    String → Option MAData :=
  match s with
  | .fulfilled (some (i, some d)) => updF m i d
  | _ => m

/-- Lines 574-584: fold the settled results, keeping only fulfilled values
that carry data. -/
def collectMA50 (l : List Settled) : String → Option MAData :=
  l.foldl collectStep (fun _ => none)

/-- Lines 589-613 (one record): attach relative strength and the industry's
MA50 data (`industryMA50[industry] || null`, then `?.field ?? null`). -/
def attachRSMA (stats : SCStats) (fmap : String → Option String)
    (ma : String → Option MAData) (r : ERec) : ERec :=
  let rs := calculateRelativeStrength r stats (some fmap)
  let d := ma (jsTrimS r.industry)
  { r with
    industryRS := rs.industryRS
    sectorRS := rs.sectorRS
    industryAboveMA50 := d.map (·.aboveMA)
    industryPercentAboveMA50 := d.map (·.percentAboveMA50) }

/-- The sort key of the final comparator: `typeof SCTR === "number" ? SCTR :
-Infinity`, with `-Infinity` modelled as `⊥` in `WithBot ℚ`. -/
def jsScoreKey (r : ERec) : WithBot ℚ :=
  match r.SCTR with
  | some q => (q : WithBot ℚ)
  | none => ⊥

/-- `comparator(a, b) ≤ 0` for the final sort comparator of lines 615-621:
equal keys fall back to `localeCompare` on the symbols (modelled as the
lexicographic string order), otherwise `sb - sa ≤ 0`, i.e. `sb < sa`. -/
def cmpLE (a b : ERec) : Prop :=
  (jsScoreKey a = jsScoreKey b ∧ strLe a.symbol b.symbol) ∨ jsScoreKey b < jsScoreKey a

instance : DecidableRel cmpLE := fun a b => by
  unfold cmpLE
  exact @instDecidableOr _ _
    (@instDecidableAnd _ _ (WithBot.decidableEq _ _) (inferInstance))
    (WithBot.decidableLT _ _)

/-- The final sort of the enriched records by the comparator. -/
def sortRecords (l : List ERec) : List ERec := l.insertionSort cmpLE

/-- The ordering as the claim words it: rank score descending with `null`
scores last, ties (including two `null`s) by symbol ascending. -/
def specLE (a b : ERec) : Prop :=
  match a.SCTR, b.SCTR with
  | some x, some y => y < x ∨ (x = y ∧ strLe a.symbol b.symbol)
  | some _, none => True
  | none, some _ => False
  | none, none => strLe a.symbol b.symbol

/-- Result shape of the enrich operation (the source spreads `industryMA50`
into `stats`; it is kept as a separate field here). -/
structure EnrichResult where
  records : List ERec
  stats : SCStats
  industryMA50 : String → Option MAData
  missingTickers : List String

/-- `apiHandlers.js` lines 401-624, `fetchSctrForTickers`. -/
def fetchSctrForTickers (tickers : List String) (src : IndustrySource)
    (alls : List Rec) (provF provY : Except Unit (String → Option ExtIS)) :
    Except JsErr EnrichResult :=
  let normalized := (tickers.map (fun t => jsUpperS (jsTrimS t))).filter (fun t => t != "")
  if normalized = [] then
    .ok { records := [],
          stats := { industries := fun _ => none, sectors := fun _ => none },
          industryMA50 := fun _ => none, missingTickers := [] }
  else
    let records := alls.filter (fun r => normalized.contains (jsUpperS r.symbol))
    let foundSymbols := records.map (fun r => jsUpperS r.symbol)
    let missingTickers := normalized.filter (fun t => !(foundSymbols.contains t))
    let extMap := industrySectorDataOf src provF provY
    let enrichedRecords := records.map (enrichOne extMap)
    -- Lines 485-494: `missingTickers.map((ticker) => { const finviz =
    -- finvizData.get(ticker); ... })`.  `finvizData` is a `const` local of
    -- the finviz-branch `try` block and is not in scope here, so the first
    -- callback invocation throws a ReferenceError; the callback only runs
    -- when `missingTickers` is nonempty.
    if missingTickers ≠ [] then .error (.referenceError "finvizData")
    else
      let fmap := buildFmap alls enrichedRecords
      let stats := calculateIndustrySectorStats alls
      let industriesArray := firstDedup
        ((enrichedRecords.map (fun r => jsTrimS r.industry)).filter (fun i => i != ""))
      -- Lines 550-571: each per-industry task evaluates the unbound
      -- identifier `allEnriched` inside its `try`, so it throws and its
      -- catch returns null; a task whose record filter is empty returns
      -- null directly.  Either way the task fulfills with null.
      let ma50Settled := industriesArray.map (fun i =>
        if (enrichedRecords.filter (fun r => jsTrimS r.industry == i)).isEmpty
        then Settled.fulfilled none
        else settleOf i CompOutcome.threw)
      let industryMA50 := collectMA50 ma50Settled
      let recordsWithRS := enrichedRecords.map (attachRSMA stats fmap industryMA50)
      .ok { records := sortRecords recordsWithRS, stats := stats,
            industryMA50 := industryMA50, missingTickers := missingTickers }

/-- The records of a successful enrich result (`[]` for a rejected one). -/
def okRecords : Except JsErr EnrichResult → List ERec
  | .ok r => r.records
  | .error _ => []

/-- A concrete 50-day price history (50 distinct, lexicographically ordered
dates, constant close 1) used to witness the MA50 calculators. -/
def exPrices : List Price :=
  (List.range 50).map (fun i => { date := toString (10 + i), close := (1 : ℚ) })

/-- A concrete fetch outcome: `SMH` has the 50-day history, everything else
fails. -/
def exFetch : String → Option (List Price) :=
  fun s => if s = "SMH" then some exPrices else none

/-- One value pushed onto a group accumulator (the update `statStep`
performs on the touched key). -/
def pushAcc (a : Option GAcc) (q : ℚ) : Option GAcc :=
  match a with
  | none => some ⟨q, 1, [q]⟩
  | some x => some ⟨x.sum + q, x.count + 1, x.values ++ [q]⟩

/-! ## Lemmas and theorems -/

/-- A colon is not an admissible ticker character. -/
lemma allowed_colon_false : allowedTickerChar ':' = false := by decide

/-- A string still containing a colon is rejected by the final validation
stage of `normalizeTickerCandidate`. -/
lemma finishCand_of_colon (s : List Char) (h : ':' ∈ s) : finishCand s = [] := by
  have hu : Char.toUpper ':' = ':' := by decide
  have hc : ':' ∈ s.map Char.toUpper := by
    have := List.mem_map_of_mem Char.toUpper h
    rwa [hu] at this
  unfold finishCand
  by_cases h1 : s.map Char.toUpper = "TICKER".data ∨ s.map Char.toUpper = "SYMBOL".data
  · rcases h1 with h1 | h1 <;> rw [h1] at hc <;> exact absurd hc (by decide)
  · rw [if_neg h1]
    have h2 : tickerShape (s.map Char.toUpper) = false := by
      unfold tickerShape
      have : (s.map Char.toUpper).all allowedTickerChar = false := by
        rw [Bool.eq_false_iff]
        intro hall
        have := List.all_eq_true.mp hall _ hc
        simp [allowedTickerChar] at this
      simp [this]
    simp [h2]

/-- `finishCand` rejects the empty candidate. -/
lemma finishCand_nil : finishCand [] = [] := by decide

/-- What one loop step of the stats accumulation does to the lookup at a
nonempty key `k`. -/
lemma statStep_eq (proj : Rec → String) (m : String → Option GAcc) (r : Rec)
    (k : String) (hk : k ≠ "") :
    (statStep proj m r) k =
      match r.SCTR with
      | none => m k
      | some q => if jsTrimS (proj r) = k then pushAcc (m k) q else m k := by
  unfold statStep
  cases hS : r.SCTR with
  | none => rfl
  | some q =>
      simp only
      by_cases h0 : jsTrimS (proj r) = ""
      · rw [if_pos h0, h0, if_neg (fun h => hk h.symm)]
      · rw [if_neg h0]
        by_cases hk2 : jsTrimS (proj r) = k
        · rw [if_pos hk2, hk2]
          cases hm : m k <;> simp [updF, pushAcc, hm]
        · rw [if_neg hk2]
          cases hm : m (jsTrimS (proj r)) <;> simp [updF, Ne.symm hk2]

/-- The stats accumulation at a nonempty key folds exactly the group's
scores onto the starting accumulator. -/
lemma statAcc_go (proj : Rec → String) (recs : List Rec) :
    ∀ (m : String → Option GAcc) (k : String), k ≠ "" →
      (recs.foldl (statStep proj) m) k =
        (groupScores proj recs k).foldl pushAcc (m k) := by
  induction recs with
  | nil => intro m k _; rfl
  | cons r rest ih =>
      intro m k hk
      rw [List.foldl_cons, ih (statStep proj m r) k hk]
      cases hS : r.SCTR with
      | none =>
          have h1 : (statStep proj m r) k = m k := by
            rw [statStep_eq proj m r k hk, hS]
          have h2 : groupScores proj (r :: rest) k = groupScores proj rest k := by
            unfold groupScores
            rw [List.filterMap_cons]
            simp [hS]
          rw [h1, h2]
      | some q =>
          by_cases hk2 : jsTrimS (proj r) = k
          · have h1 : (statStep proj m r) k = pushAcc (m k) q := by
              rw [statStep_eq proj m r k hk, hS]
              simp [hk2]
            have h2 : groupScores proj (r :: rest) k = q :: groupScores proj rest k := by
              unfold groupScores
              rw [List.filterMap_cons]
              simp [hS, hk2]
            rw [h1, h2, List.foldl_cons]
          · have h1 : (statStep proj m r) k = m k := by
              rw [statStep_eq proj m r k hk, hS]
              simp [hk2]
            have h2 : groupScores proj (r :: rest) k = groupScores proj rest k := by
              unfold groupScores
              rw [List.filterMap_cons]
              simp [hS, hk2]
            rw [h1, h2]

/-- Folding a nonempty score list onto the empty accumulator yields exactly
its sum, length and contents. -/
lemma pushAcc_some (vs : List ℚ) :
    ∀ (s : ℚ) (c : ℕ) (l : List ℚ),
      vs.foldl pushAcc (some ⟨s, c, l⟩) = some ⟨s + vs.sum, c + vs.length, l ++ vs⟩ := by
  induction vs with
  | nil => intro s c l; simp
  | cons v rest ih =>
      intro s c l
      rw [List.foldl_cons]
      show rest.foldl pushAcc (some ⟨s + v, c + 1, l ++ [v]⟩) = _
      rw [ih]
      simp only [List.sum_cons, List.length_cons, List.append_assoc,
        List.singleton_append, GAcc.mk.injEq, Option.some.injEq]
      exact ⟨by ring, by omega, trivial⟩

/-- The accumulator resulting from a nonempty group. -/
lemma pushAcc_none (vs : List ℚ) (h : vs ≠ []) :
    vs.foldl pushAcc none = some ⟨vs.sum, vs.length, vs⟩ := by
  cases vs with
  | nil => exact absurd rfl h
  | cons v rest =>
      rw [List.foldl_cons]
      show rest.foldl pushAcc (some ⟨v, 1, [v]⟩) = _
      rw [pushAcc_some]
      simp [add_comm]

/-- The stats accumulation at a nonempty key: `none` for an empty group,
else the group's sum, count and values. -/
lemma statAcc_eq (proj : Rec → String) (recs : List Rec) (k : String)
    (hk : k ≠ "") :
    statAcc proj recs k =
      if groupScores proj recs k = [] then none
      else some ⟨(groupScores proj recs k).sum, (groupScores proj recs k).length,
        groupScores proj recs k⟩ := by
  unfold statAcc
  rw [statAcc_go proj recs _ k hk]
  by_cases h : groupScores proj recs k = []
  · rw [if_pos h, h]; rfl
  · rw [if_neg h, pushAcc_none _ h]

/-- The stats accumulation never creates an entry for the empty key. -/
lemma statAcc_empty_key (proj : Rec → String) (recs : List Rec) :
    statAcc proj recs "" = none := by
  unfold statAcc
  suffices h : ∀ m : String → Option GAcc, m "" = none →
      (recs.foldl (statStep proj) m) "" = none by
    exact h _ rfl
  induction recs with
  | nil => intro m hm; exact hm
  | cons r rest ih =>
      intro m hm
      rw [List.foldl_cons]
      refine ih _ ?_
      unfold statStep
      cases r.SCTR with
      | none => exact hm
      | some q =>
          simp only
          by_cases h0 : jsTrimS (proj r) = ""
          · rw [if_pos h0]; exact hm
          · rw [if_neg h0]
            have h0s : ¬ ("" = jsTrimS (proj r)) := fun h => h0 h.symm
            cases m (jsTrimS (proj r)) <;> simp [updF, h0s, hm]

/-- A `min`-fold is a lower bound of its start and all folded elements. -/
lemma foldl_min_le (xs : List ℚ) :
    ∀ x : ℚ, xs.foldl min x ≤ x ∧ ∀ y ∈ xs, xs.foldl min x ≤ y := by
  induction xs with
  | nil => intro x; exact ⟨le_refl x, by simp⟩
  | cons a t ih =>
      intro x
      rw [List.foldl_cons]
      obtain ⟨h1, h2⟩ := ih (min x a)
      refine ⟨le_trans h1 (min_le_left x a), ?_⟩
      intro y hy
      rcases List.mem_cons.mp hy with h | h
      · rw [h]
        exact le_trans h1 (min_le_right x a)
      · exact h2 y h

/-- A `min`-fold returns its start or one of the folded elements. -/
lemma foldl_min_mem (xs : List ℚ) : ∀ x : ℚ, xs.foldl min x ∈ x :: xs := by
  induction xs with
  | nil => intro x; simp
  | cons a t ih =>
      intro x
      rw [List.foldl_cons]
      have h := ih (min x a)
      rcases List.mem_cons.mp h with h | h
      · rw [h]
        rcases min_choice x a with hc | hc <;> rw [hc] <;> simp
      · simp [h]

/-- A `max`-fold is an upper bound of its start and all folded elements. -/
lemma le_foldl_max (xs : List ℚ) :
    ∀ x : ℚ, x ≤ xs.foldl max x ∧ ∀ y ∈ xs, y ≤ xs.foldl max x := by
  induction xs with
  | nil => intro x; exact ⟨le_refl x, by simp⟩
  | cons a t ih =>
      intro x
      rw [List.foldl_cons]
      obtain ⟨h1, h2⟩ := ih (max x a)
      refine ⟨le_trans (le_max_left x a) h1, ?_⟩
      intro y hy
      rcases List.mem_cons.mp hy with h | h
      · rw [h]
        exact le_trans (le_max_right x a) h1
      · exact h2 y h

/-- A `max`-fold returns its start or one of the folded elements. -/
lemma foldl_max_mem (xs : List ℚ) : ∀ x : ℚ, xs.foldl max x ∈ x :: xs := by
  induction xs with
  | nil => intro x; simp
  | cons a t ih =>
      intro x
      rw [List.foldl_cons]
      have h := ih (max x a)
      rcases List.mem_cons.mp h with h | h
      · rw [h]
        rcases max_choice x a with hc | hc <;> rw [hc] <;> simp
      · simp [h]

/-- The head of a `≤`-sorted list bounds all its members. -/
lemma sorted_headI_le {s : List ℚ} (hs : s.Sorted (· ≤ ·)) :
    ∀ x ∈ s, s.headI ≤ x := by
  cases s with
  | nil => simp
  | cons a t =>
      intro x hx
      rcases List.mem_cons.mp hx with h | h
      · simp [h]
      · exact (List.sorted_cons.mp hs).1 x h

/-- Every member of a `≤`-sorted list is bounded by its last element. -/
lemma sorted_le_getLastD {s : List ℚ} (hs : s.Sorted (· ≤ ·)) :
    ∀ x ∈ s, x ≤ s.getLastD 0 := by
  induction s with
  | nil => simp
  | cons a t ih =>
      intro x hx
      obtain ⟨hab, ht⟩ := List.sorted_cons.mp hs
      cases t with
      | nil =>
          rcases List.mem_cons.mp hx with h | h
          · simp [h]
          · simp at h
      | cons b u =>
          have hlast : (a :: b :: u).getLastD 0 = (b :: u).getLastD 0 := rfl
          rw [hlast]
          rcases List.mem_cons.mp hx with h | h
          · subst h
            exact le_trans (hab b (by simp)) (ih ht b (by simp))
          · exact ih ht x h

/-- The head of the ascending sort of a nonempty score list is the list's
minimum. -/
lemma headI_sort_eq_specMin (vs : List ℚ) (h : vs ≠ []) :
    (vs.insertionSort (· ≤ ·)).headI = specMin vs := by
  obtain ⟨x, xs, rfl⟩ := List.exists_cons_of_ne_nil h
  have hperm := List.perm_insertionSort (α := ℚ) (· ≤ ·) (x :: xs)
  have hsorted := List.sorted_insertionSort (α := ℚ) (· ≤ ·) (x :: xs)
  have hne : (x :: xs).insertionSort (· ≤ ·) ≠ [] := by
    intro hcon
    have := hperm.length_eq
    rw [hcon] at this
    simp at this
  have hmem : ((x :: xs).insertionSort (· ≤ ·)).headI ∈
      (x :: xs).insertionSort (· ≤ ·) := by
    cases hh : (x :: xs).insertionSort (· ≤ ·) with
    | nil => exact absurd hh hne
    | cons a t => simp
  have hmem2 : ((x :: xs).insertionSort (· ≤ ·)).headI ∈ x :: xs :=
    hperm.mem_iff.mp hmem
  have hminmem : specMin (x :: xs) ∈ (x :: xs).insertionSort (· ≤ ·) := by
    refine hperm.mem_iff.mpr ?_
    show xs.foldl min x ∈ x :: xs
    exact foldl_min_mem xs x
  refine le_antisymm (sorted_headI_le hsorted _ hminmem) ?_
  show specMin (x :: xs) ≤ _
  show xs.foldl min x ≤ _
  rcases List.mem_cons.mp hmem2 with hh | hh
  · rw [hh]; exact (foldl_min_le xs x).1
  · exact (foldl_min_le xs x).2 _ hh

/-- The last element of the ascending sort of a nonempty score list is the
list's maximum. -/
lemma getLastD_sort_eq_specMax (vs : List ℚ) (h : vs ≠ []) :
    (vs.insertionSort (· ≤ ·)).getLastD 0 = specMax vs := by
  obtain ⟨x, xs, rfl⟩ := List.exists_cons_of_ne_nil h
  have hperm := List.perm_insertionSort (α := ℚ) (· ≤ ·) (x :: xs)
  have hsorted := List.sorted_insertionSort (α := ℚ) (· ≤ ·) (x :: xs)
  have hne : (x :: xs).insertionSort (· ≤ ·) ≠ [] := by
    intro hcon
    have := hperm.length_eq
    rw [hcon] at this
    simp at this
  have hlastmem : ((x :: xs).insertionSort (· ≤ ·)).getLastD 0 ∈
      (x :: xs).insertionSort (· ≤ ·) := by
    cases hh : (x :: xs).insertionSort (· ≤ ·) with
    | nil => exact absurd hh hne
    | cons a t =>
        rw [List.getLastD_eq_getLast?, List.getLast?_eq_getLast (a :: t) (by simp)]
        simp [List.getLast_mem]
  have hlastmem2 : ((x :: xs).insertionSort (· ≤ ·)).getLastD 0 ∈ x :: xs :=
    hperm.mem_iff.mp hlastmem
  have hmaxmem : specMax (x :: xs) ∈ (x :: xs).insertionSort (· ≤ ·) := by
    refine hperm.mem_iff.mpr ?_
    show xs.foldl max x ∈ x :: xs
    exact foldl_max_mem xs x
  refine le_antisymm ?_ (sorted_le_getLastD hsorted _ hmaxmem)
  show _ ≤ specMax (x :: xs)
  show _ ≤ xs.foldl max x
  rcases List.mem_cons.mp hlastmem2 with hh | hh
  · rw [hh]; exact (le_foldl_max xs x).1
  · exact (le_foldl_max xs x).2 _ hh

/-- The per-key result of the stats computation equals the claim-side group
entry (amended median reading). -/
lemma statsEntry_eq (proj : Rec → String) (recs : List Rec) (k : String) :
    ((statAcc proj recs k).bind
      (fun a => if a.count > 0 then some (mkStatsEntry a) else none)) =
      specGroupEntry proj recs k := by
  by_cases hk : k = ""
  · subst hk
    rw [statAcc_empty_key]
    rfl
  · rw [statAcc_eq proj recs k hk]
    unfold specGroupEntry
    rw [if_neg hk]
    by_cases h : groupScores proj recs k = []
    · rw [if_pos h, if_pos h]; rfl
    · rw [if_neg h, if_neg h]
      have hlen : 0 < (groupScores proj recs k).length := List.length_pos.mpr h
      rw [Option.some_bind, if_pos hlen]
      simp only [mkStatsEntry, Option.some.injEq, StatsEntry.mk.injEq,
        specUpperMedian]
      exact ⟨trivial, trivial, headI_sort_eq_specMin _ h, getLastD_sort_eq_specMax _ h, trivial⟩

/-- A claim-side group entry always has a positive member count. -/
lemma specGroupEntry_count_pos (proj : Rec → String) (recs : List Rec)
    (k : String) (e : StatsEntry) (h : specGroupEntry proj recs k = some e) :
    0 < e.count := by
  unfold specGroupEntry at h
  by_cases hk : k = ""
  · rw [if_pos hk] at h; exact absurd h (by simp)
  · rw [if_neg hk] at h
    by_cases hv : groupScores proj recs k = []
    · rw [if_pos hv] at h; exact absurd h (by simp)
    · rw [if_neg hv] at h
      have := Option.some.inj h
      rw [← this]
      exact List.length_pos.mpr hv

/-- The industries map of the stats computation, in claim-side form. -/
lemma industries_eq_spec (recs : List Rec) (g : String) :
    (calculateIndustrySectorStats recs).industries g =
      specGroupEntry (fun r => r.industry) recs g := statsEntry_eq _ recs g

/-- The sectors map of the stats computation, in claim-side form. -/
lemma sectors_eq_spec (recs : List Rec) (g : String) :
    (calculateIndustrySectorStats recs).sectors g =
      specGroupEntry (fun r => r.sector) recs g := statsEntry_eq _ recs g

/-- Claim C4, counterexample: for the even-sized industry group with scores
`[10, 20]` the implementation's `median` field is `20` — the element at
index `⌊count / 2⌋` of the sorted scores — whereas the median of those
scores is `15`; the claimed characterization ("the median of those
scores") therefore fails on even-sized groups. -/
theorem C4_counterexample :
    (((calculateIndustrySectorStats
        [{ symbol := "P", SCTR := some 10, industry := "A" },
         { symbol := "Q", SCTR := some 20, industry := "A" }]).industries "A").map
      (fun e => e.median)) = some 20 ∧
    specMedian (groupScores (fun r => r.industry)
        [{ symbol := "P", SCTR := some 10, industry := "A" },
         { symbol := "Q", SCTR := some 20, industry := "A" }] "A") = 15 ∧
    (((calculateIndustrySectorStats
        [{ symbol := "P", SCTR := some 10, industry := "A" },
         { symbol := "Q", SCTR := some 20, industry := "A" }]).industries "A").map
      (fun e => e.median)) ≠
      some (specMedian (groupScores (fun r => r.industry)
        [{ symbol := "P", SCTR := some 10, industry := "A" },
         { symbol := "Q", SCTR := some 20, industry := "A" }] "A")) := by
  have hmed : (((calculateIndustrySectorStats
      [{ symbol := "P", SCTR := some 10, industry := "A" },
       { symbol := "Q", SCTR := some 20, industry := "A" }]).industries "A").map
      (fun e => e.median)) = some 20 := by decide
  have hgs : groupScores (fun r => r.industry)
      [{ symbol := "P", SCTR := some 10, industry := "A" },
       { symbol := "Q", SCTR := some 20, industry := "A" }] "A" = [10, 20] := by
    decide
  have hsort : List.insertionSort (fun a b : ℚ => a ≤ b) [10, 20] = [10, 20] := by
    decide
  have hspec : specMedian (groupScores (fun r => r.industry)
      [{ symbol := "P", SCTR := some 10, industry := "A" },
       { symbol := "Q", SCTR := some 20, industry := "A" }] "A") = 15 := by
    rw [hgs]
    simp only [specMedian, hsort, List.getD, List.length_cons, List.length_nil]
    norm_num
  refine ⟨hmed, hspec, ?_⟩
  rw [hmed, hspec]
  decide

/-- Claim C4 (amended): for every dataset and every distinct non-empty
industry (resp. sector) name, the peer-statistics computation produces a
stats entry computed only from the records with non-null rank score in that
group, containing the arithmetic mean, count, minimum and maximum of those
scores, and — amended — the element at index `⌊count / 2⌋` of the
ascending-sorted scores as `median` (which is the statistical median for
odd-sized groups); for the dataset with industry groups
`{A: [10, 20, 30], B: [50]}` it yields `A.average = 20`, `A.median = 20`,
`A.min = 10`, `A.max = 30`, `A.count = 3`, and `B` present with
`count = 1`. -/
theorem C4_amended :
    (∀ (recs : List Rec) (g : String),
        (calculateIndustrySectorStats recs).industries g =
          specGroupEntry (fun r => r.industry) recs g ∧
        (calculateIndustrySectorStats recs).sectors g =
          specGroupEntry (fun r => r.sector) recs g) ∧
    (calculateIndustrySectorStats
        [{ symbol := "P", SCTR := some 10, industry := "A" },
         { symbol := "Q", SCTR := some 20, industry := "A" },
         { symbol := "R", SCTR := some 30, industry := "A" },
         { symbol := "S", SCTR := some 50, industry := "B" }]).industries "A" =
      some { avg := 20, count := 3, min := 10, max := 30, median := 20 } ∧
    (calculateIndustrySectorStats
        [{ symbol := "P", SCTR := some 10, industry := "A" },
         { symbol := "Q", SCTR := some 20, industry := "A" },
         { symbol := "R", SCTR := some 30, industry := "A" },
         { symbol := "S", SCTR := some 50, industry := "B" }]).industries "B" =
      some { avg := 50, count := 1, min := 50, max := 50, median := 50 } := by
  refine ⟨fun recs g => ⟨industries_eq_spec recs g, sectors_eq_spec recs g⟩, ?_, ?_⟩
  · rw [industries_eq_spec]
    have hgs : groupScores (fun r => r.industry)
        [{ symbol := "P", SCTR := some 10, industry := "A" },
         { symbol := "Q", SCTR := some 20, industry := "A" },
         { symbol := "R", SCTR := some 30, industry := "A" },
         { symbol := "S", SCTR := some 50, industry := "B" }] "A" = [10, 20, 30] := by
      decide
    simp only [specGroupEntry, hgs]
    rw [if_neg (by decide : ¬ ("A" : String) = ""),
      if_neg (by decide : ¬ ([(10 : ℚ), 20, 30] = []))]
    have h1 : specMin [(10 : ℚ), 20, 30] = 10 := by decide
    have h2 : specMax [(10 : ℚ), 20, 30] = 30 := by decide
    have h3 : specUpperMedian [(10 : ℚ), 20, 30] = 20 := by decide
    rw [h1, h2, h3]
    simp only [List.sum_cons, List.sum_nil, List.length_cons, List.length_nil,
      Option.some.injEq, StatsEntry.mk.injEq]
    norm_num
  · rw [industries_eq_spec]
    have hgs : groupScores (fun r => r.industry)
        [{ symbol := "P", SCTR := some 10, industry := "A" },
         { symbol := "Q", SCTR := some 20, industry := "A" },
         { symbol := "R", SCTR := some 30, industry := "A" },
         { symbol := "S", SCTR := some 50, industry := "B" }] "B" = [50] := by
      decide
    simp only [specGroupEntry, hgs]
    rw [if_neg (by decide : ¬ ("B" : String) = ""),
      if_neg (by decide : ¬ ([(50 : ℚ)] = []))]
    have h1 : specMin [(50 : ℚ)] = 50 := by decide
    have h2 : specMax [(50 : ℚ)] = 50 := by decide
    have h3 : specUpperMedian [(50 : ℚ)] = 50 := by decide
    rw [h1, h2, h3]
    simp only [List.sum_cons, List.sum_nil, List.length_cons, List.length_nil,
      Option.some.injEq, StatsEntry.mk.injEq]
    norm_num

/-- One relative-strength branch of the implementation coincides with the
claim's wording whenever the stats entry (if any) has a positive count. -/
lemma rs_branch_eq (sctr : ℚ) (g : String) (look : Option StatsEntry)
    (hcount : ∀ e, look = some e → 0 < e.count) :
    (if g ≠ "" then
      match look with
      | some e =>
          if e.avg > 0 ∧ e.count > 1 then some ((sctr - e.avg) / e.avg * 100)
          else none
      | none => none
     else none) =
    (if g = "" then none
     else
      match look with
      | none => none
      | some e =>
          if e.avg ≤ 0 ∨ e.count = 1 then none
          else some ((sctr - e.avg) / e.avg * 100)) := by
  by_cases hg : g = ""
  · simp [hg]
  · rw [if_pos hg, if_neg hg]
    cases look with
    | none => rfl
    | some e =>
        have hc := hcount e rfl
        show (if e.avg > 0 ∧ e.count > 1 then some ((sctr - e.avg) / e.avg * 100)
            else none) =
          (if e.avg ≤ 0 ∨ e.count = 1 then none
            else some ((sctr - e.avg) / e.avg * 100))
        by_cases ha : e.avg > 0 ∧ e.count > 1
        · rw [if_pos ha, if_neg ?_]
          rintro (h | h)
          · exact absurd ha.1 (not_lt.mpr h)
          · omega
        · rw [if_neg ha, if_pos ?_]
          by_cases hp : e.avg > 0
          · refine Or.inr ?_
            have : ¬ e.count > 1 := fun hgt => ha ⟨hp, hgt⟩
            omega
          · exact Or.inl (not_lt.mp hp)

/-- The claim-side relative strength is `null` for the industry dimension
when the record's effective industry resolves to a single-member group. -/
lemma specRS_single_none (r : ERec) (stats : SCStats)
    (fmap : Option (String → Option String)) (sctr : ℚ) (e : StatsEntry)
    (h1 : r.SCTR = some sctr)
    (h2 : stats.industries (effectiveIndustry r fmap) = some e)
    (h3 : effectiveIndustry r fmap ≠ "") (h4 : e.count = 1) :
    (specRelStrength r stats fmap).industryRS = none := by
  unfold specRelStrength
  rw [h1]
  simp only
  rw [if_neg h3, h2]
  show (if e.avg ≤ 0 ∨ e.count = 1 then none
    else some ((sctr - e.avg) / e.avg * 100)) = none
  rw [if_pos (Or.inr h4)]

/-- Claim C3: against the computed peer-group statistics table, a record's
industry (resp. sector) relative strength equals
`(recordScore - groupAverage) / groupAverage * 100`, computed independently
for industry and sector, and is `null` exactly when the record's score is
`null`, the (effective) group name is empty or absent from the statistics,
the group's average is non-positive, or the group has only one member — as
captured by `specRelStrength`; in particular a record whose industry group
has exactly one member gets industry relative strength `null` (shown for a
single-member group whose sole score is `42`), never `0`. -/
theorem C3_relative_strength :
    (∀ (alls : List Rec) (r : ERec) (fmap : Option (String → Option String)),
        calculateRelativeStrength r (calculateIndustrySectorStats alls) fmap =
          specRelStrength r (calculateIndustrySectorStats alls) fmap) ∧
    (calculateRelativeStrength
        { symbol := "N", SCTR := some 42, industry := "Solo" }
        (calculateIndustrySectorStats
          [{ symbol := "N", SCTR := some 42, industry := "Solo" }]) none).industryRS
      = none := by
  have hmain : ∀ (alls : List Rec) (r : ERec) (fmap : Option (String → Option String)),
      calculateRelativeStrength r (calculateIndustrySectorStats alls) fmap =
        specRelStrength r (calculateIndustrySectorStats alls) fmap := by
    intro alls r fmap
    unfold calculateRelativeStrength specRelStrength
    cases hS : r.SCTR with
    | none => rfl
    | some sctr =>
        simp only [RSResult.mk.injEq]
        constructor
        · exact rs_branch_eq sctr (effectiveIndustry r fmap)
            ((calculateIndustrySectorStats alls).industries (effectiveIndustry r fmap))
            (fun e he => specGroupEntry_count_pos _ alls _ e
              ((industries_eq_spec alls _) ▸ he))
        · exact rs_branch_eq sctr (jsTrimS r.sector)
            ((calculateIndustrySectorStats alls).sectors (jsTrimS r.sector))
            (fun e he => specGroupEntry_count_pos _ alls _ e
              ((sectors_eq_spec alls _) ▸ he))
  refine ⟨hmain, ?_⟩
  rw [hmain]
  have heff : effectiveIndustry
      ({ symbol := "N", SCTR := some 42, industry := "Solo" } : ERec) none = "Solo" := by
    decide
  have hcnt : (((calculateIndustrySectorStats
      [{ symbol := "N", SCTR := some 42, industry := "Solo" }]).industries "Solo").map
      (fun e => e.count)) = some 1 := by decide
  cases hE : (calculateIndustrySectorStats
      [{ symbol := "N", SCTR := some 42, industry := "Solo" }]).industries "Solo" with
  | none => rw [hE] at hcnt; simp at hcnt
  | some e =>
      rw [hE] at hcnt
      have hc1 : e.count = 1 := by simpa using hcnt
      refine specRS_single_none _ _ _ 42 e rfl ?_ ?_ hc1
      · rw [heff]; exact hE
      · rw [heff]; decide

/-- The lexicographic comparison is total. -/
lemma charListLe_total : ∀ l1 l2 : List Char,
    charListLe l1 l2 = true ∨ charListLe l2 l1 = true := by
  intro l1
  induction l1 with
  | nil => intro l2; left; rfl
  | cons a as ih =>
      intro l2
      cases l2 with
      | nil => right; rfl
      | cons b bs =>
          unfold charListLe
          rcases lt_trichotomy a b with h | h | h
          · left; simp [h]
          · subst h
            rcases ih bs with ht | ht
            · left; simp [lt_irrefl, ht]
            · right; simp [lt_irrefl, ht]
          · right; simp [h]

/-- The lexicographic comparison is transitive. -/
lemma charListLe_trans : ∀ l1 l2 l3 : List Char,
    charListLe l1 l2 = true → charListLe l2 l3 = true → charListLe l1 l3 = true := by
  intro l1
  induction l1 with
  | nil => intro l2 l3 _ _; rfl
  | cons a as ih =>
      intro l2 l3 h12 h23
      cases l2 with
      | nil => simp [charListLe] at h12
      | cons b bs =>
          cases l3 with
          | nil => simp [charListLe] at h23
          | cons c cs =>
              unfold charListLe at h12 h23 ⊢
              by_cases hab : a < b
              · by_cases hbc : b < c
                · simp [lt_trans hab hbc]
                · by_cases hcb : c < b
                  · simp [hbc, hcb] at h23
                  · have hb : b = c := le_antisymm (not_lt.mp hcb) (not_lt.mp hbc)
                    subst hb
                    simp [hab]
              · by_cases hba : b < a
                · simp [hab, hba] at h12
                · have hab2 : a = b := le_antisymm (not_lt.mp hba) (not_lt.mp hab)
                  subst hab2
                  rw [if_neg hab, if_neg hba] at h12
                  by_cases hbc : a < c
                  · simp [hbc]
                  · by_cases hcb : c < a
                    · simp [hbc, hcb] at h23
                    · rw [if_neg hbc, if_neg hcb] at h23 ⊢
                      exact ih bs cs h12 h23

/-- `strLe` totality. -/
lemma strLe_total (a b : String) : strLe a b ∨ strLe b a := charListLe_total _ _

/-- `strLe` transitivity. -/
lemma strLe_trans {a b c : String} (h1 : strLe a b) (h2 : strLe b c) :
    strLe a c := charListLe_trans _ _ _ h1 h2

/-- The comparator order is total. -/
instance : IsTotal ERec cmpLE where
  total a b := by
    unfold cmpLE
    rcases lt_trichotomy (jsScoreKey a) (jsScoreKey b) with h | h | h
    · exact Or.inr (Or.inr h)
    · rcases strLe_total a.symbol b.symbol with hs | hs
      · exact Or.inl (Or.inl ⟨h, hs⟩)
      · exact Or.inr (Or.inl ⟨h.symm, hs⟩)
    · exact Or.inl (Or.inr h)

/-- The comparator order is transitive. -/
instance : IsTrans ERec cmpLE where
  trans a b c hab hbc := by
    unfold cmpLE at hab hbc ⊢
    rcases hab with ⟨he1, hs1⟩ | hl1
    · rcases hbc with ⟨he2, hs2⟩ | hl2
      · exact Or.inl ⟨he1.trans he2, strLe_trans hs1 hs2⟩
      · exact Or.inr (he1 ▸ hl2)
    · rcases hbc with ⟨he2, _⟩ | hl2
      · exact Or.inr (he2 ▸ hl1)
      · exact Or.inr (lt_trans hl2 hl1)

/-- The comparator realizes exactly the claimed ordering: score descending,
null scores last, ties broken by symbol ascending. -/
lemma cmpLE_iff_specLE (a b : ERec) : cmpLE a b ↔ specLE a b := by
  unfold cmpLE specLE jsScoreKey
  cases hA : a.SCTR with
  | none =>
      cases hB : b.SCTR with
      | none => simp
      | some y => simp
  | some x =>
      cases hB : b.SCTR with
      | none => simp [WithBot.bot_lt_coe]
      | some y =>
          simp only [WithBot.coe_eq_coe, WithBot.coe_lt_coe]
          exact or_comm

/-- The final sort always produces a list sorted by the claimed ordering. -/
lemma sorted_sortRecords (l : List ERec) : List.Sorted specLE (sortRecords l) :=
  (List.sorted_insertionSort cmpLE l).imp (fun h => (cmpLE_iff_specLE _ _).mp h)

/-- Claim C2: for every enrich request, the returned records list is sorted
by rank score descending with null scores placed last, records with equal
scores (including two nulls) ordered by symbol ascending (`specLE`); in
particular input records with scores `[10, null, 30, 30]` and symbols
`[X, Y, A, B]` come out in the order `A(30), B(30), X(10), Y(null)`. -/
theorem C2_sorted :
    (∀ (ts : List String) (src : IndustrySource) (alls : List Rec)
        (pF pY : Except Unit (String → Option ExtIS)),
        List.Sorted specLE (okRecords (fetchSctrForTickers ts src alls pF pY))) ∧
    sortRecords
      [{ symbol := "X", SCTR := some 10 }, { symbol := "Y", SCTR := none },
       { symbol := "A", SCTR := some 30 }, { symbol := "B", SCTR := some 30 }] =
    [{ symbol := "A", SCTR := some 30 }, { symbol := "B", SCTR := some 30 },
     { symbol := "X", SCTR := some 10 }, { symbol := "Y", SCTR := none }] := by
  constructor
  · intro ts src alls pF pY
    unfold fetchSctrForTickers
    dsimp only
    split
    · exact List.sorted_nil
    · split
      · exact List.sorted_nil
      · exact sorted_sortRecords _
  · decide

/-- Collecting settled results that all fulfilled with `null` yields an
empty map. -/
lemma collectMA50_all_none (l : List Settled)
    (h : ∀ s ∈ l, s = .fulfilled none) : ∀ k, collectMA50 l k = none := by
  unfold collectMA50
  suffices hgen : ∀ (m : String → Option MAData), (∀ k, m k = none) →
      ∀ k, (l.foldl collectStep m) k = none by
    exact hgen _ (fun _ => rfl)
  induction l with
  | nil => intro m hm k; exact hm k
  | cons s rest ih =>
      intro m hm k
      rw [List.foldl_cons]
      have hs := h s (by simp)
      subst hs
      exact ih (fun s hs => h s (by simp [hs])) m hm k

/-- Every per-industry MA50 task of the orchestrator settles with `null`
(the empty-records branch directly, the other branch through the caught
`ReferenceError`). -/
lemma ma50Settled_all_none (ers : List ERec) (inds : List String) :
    ∀ s ∈ inds.map (fun i =>
      if (ers.filter (fun r => jsTrimS r.industry == i)).isEmpty
      then Settled.fulfilled none
      else settleOf i CompOutcome.threw), s = .fulfilled none := by
  intro s hs
  obtain ⟨i, _, rfl⟩ := List.mem_map.mp hs
  split <;> rfl

/-- A record enriched against an empty MA50 map carries null trend fields. -/
lemma attachRSMA_none_fields (stats : SCStats) (fmap : String → Option String)
    (m : String → Option MAData) (hm : ∀ k, m k = none) (r : ERec) :
    (attachRSMA stats fmap m r).industryAboveMA50 = none ∧
    (attachRSMA stats fmap m r).industryPercentAboveMA50 = none := by
  unfold attachRSMA
  simp [hm]

/-- Claim C10 (implicit): every successful enrich result has
`industryAboveMA50 = null` and `industryPercentAboveMA50 = null` on every
returned record — the orchestrator's per-industry trend tasks all evaluate
the unbound identifier `allEnriched` (or have no records) and settle with
`null`, so the collected trend map is empty and the industry-trend
enrichment dimension is never populated. -/
theorem C10_trend_never_populated :
    ∀ (ts : List String) (src : IndustrySource) (alls : List Rec)
      (pF pY : Except Unit (String → Option ExtIS)),
      (okRecords (fetchSctrForTickers ts src alls pF pY)).all
        (fun r => r.industryAboveMA50.isNone && r.industryPercentAboveMA50.isNone)
        = true := by
  intro ts src alls pF pY
  unfold fetchSctrForTickers
  dsimp only
  split
  · rfl
  · split
    · rfl
    · rw [List.all_eq_true]
      intro r hr
      have hmem : r ∈ List.map
          (attachRSMA (calculateIndustrySectorStats alls) _ (collectMA50 _)) _ :=
        (List.perm_insertionSort cmpLE _).mem_iff.mp hr
      obtain ⟨x, _, rfl⟩ := List.mem_map.mp hmem
      obtain ⟨h1, h2⟩ := attachRSMA_none_fields _ _ _
        (collectMA50_all_none _ (ma50Settled_all_none _ _)) x
      rw [h1, h2]
      rfl

/-- One collection step looks at a key only through the settled value and
the map's own value at that key. -/
lemma collectStep_key (m1 m2 : String → Option MAData) (s : Settled)
    (k : String) (h : m1 k = m2 k) : collectStep m1 s k = collectStep m2 s k := by
  unfold collectStep
  cases s with
  | rejected => exact h
  | fulfilled v =>
      match v with
      | none => exact h
      | some (i, none) => exact h
      | some (i, some d) =>
          unfold updF
          by_cases hk : k = i
          · simp [hk]
          · simp [hk, h]

/-- The collection fold at one key is determined by the starting map's value
at that key. -/
lemma collectFold_key : ∀ (post : List Settled) (m1 m2 : String → Option MAData)
    (k : String), m1 k = m2 k →
    (post.foldl collectStep m1) k = (post.foldl collectStep m2) k := by
  intro post
  induction post with
  | nil => intro m1 m2 k h; exact h
  | cons s rest ih =>
      intro m1 m2 k h
      rw [List.foldl_cons, List.foldl_cons]
      exact ih _ _ k (collectStep_key m1 m2 s k h)

/-- Claim C9: in the per-industry trend collection, a computation that runs
into its timeout settles exactly like one that completed with `null` from a
failed fetch — neither adds an entry, so the collected map, and hence every
caller-visible outcome, agrees; moreover one industry's outcome never
affects another industry's collected entry, a record whose industry has no
entry gets null trend fields, and a record's non-trend fields (base record,
provenance, relative strength) do not depend on the trend map at all. -/
theorem C9_trend_failure_isolation :
    (∀ (i : String) (pre post : List Settled) (k : String),
        collectMA50 (pre ++ settleOf i CompOutcome.timedOut :: post) k =
        collectMA50 (pre ++ settleOf i (CompOutcome.completed none) :: post) k) ∧
    (∀ (i : String) (o o2 : CompOutcome) (pre post : List Settled) (k : String),
        k ≠ i →
        collectMA50 (pre ++ settleOf i o :: post) k =
        collectMA50 (pre ++ settleOf i o2 :: post) k) ∧
    (∀ (stats : SCStats) (fmap : String → Option String)
        (m : String → Option MAData) (r : ERec),
        m (jsTrimS r.industry) = none →
        (attachRSMA stats fmap m r).industryAboveMA50 = none ∧
        (attachRSMA stats fmap m r).industryPercentAboveMA50 = none) ∧
    (∀ (stats : SCStats) (fmap : String → Option String)
        (m m2 : String → Option MAData) (r : ERec),
        (attachRSMA stats fmap m r).toRec = (attachRSMA stats fmap m2 r).toRec ∧
        (attachRSMA stats fmap m r).industrySource =
          (attachRSMA stats fmap m2 r).industrySource ∧
        (attachRSMA stats fmap m r).sectorSource =
          (attachRSMA stats fmap m2 r).sectorSource ∧
        (attachRSMA stats fmap m r).industryRS =
          (attachRSMA stats fmap m2 r).industryRS ∧
        (attachRSMA stats fmap m r).sectorRS =
          (attachRSMA stats fmap m2 r).sectorRS) ∧
    (∀ (stats : SCStats) (fmap : String → Option String)
        (m m2 : String → Option MAData) (r : ERec),
        m (jsTrimS r.industry) = m2 (jsTrimS r.industry) →
        attachRSMA stats fmap m r = attachRSMA stats fmap m2 r) := by
  refine ⟨?_, ?_, ?_, ?_, ?_⟩
  · intro i pre post k
    unfold collectMA50
    rw [List.foldl_append, List.foldl_append, List.foldl_cons, List.foldl_cons]
    rfl
  · intro i o o2 pre post k hk
    unfold collectMA50
    rw [List.foldl_append, List.foldl_append, List.foldl_cons, List.foldl_cons]
    refine collectFold_key post _ _ k ?_
    have hstep : ∀ o3 : CompOutcome,
        collectStep (pre.foldl collectStep (fun _ => none)) (settleOf i o3) k =
          (pre.foldl collectStep (fun _ => none)) k := by
      intro o3
      cases o3 with
      | timedOut => rfl
      | threw => rfl
      | completed v =>
          cases v with
          | none => rfl
          | some d =>
              show updF (pre.foldl collectStep (fun _ => none)) i d k = _
              unfold updF
              rw [if_neg hk]
    rw [hstep o, hstep o2]
  · intro stats fmap m r h
    unfold attachRSMA
    simp [h]
  · intro stats fmap m m2 r
    exact ⟨rfl, rfl, rfl, rfl, rfl⟩
  · intro stats fmap m m2 r h
    unfold attachRSMA
    rw [h]

/-- Witness for claim C9 at concrete inputs: a timed-out computation for
`Semiconductors` collects like a null completion, the entry for `Software`
is unaffected by the `Semiconductors` outcome, and a record whose industry
has no entry gets null trend fields. -/
theorem C9_witness :
    (collectMA50 ([] ++ settleOf "Semiconductors" CompOutcome.timedOut :: []) "Software" =
      collectMA50 ([] ++ settleOf "Semiconductors" (CompOutcome.completed none) :: []) "Software") ∧
    (collectMA50 ([] ++ settleOf "Semiconductors" CompOutcome.timedOut :: []) "Software" =
      collectMA50 ([] ++ settleOf "Semiconductors" CompOutcome.threw :: []) "Software") ∧
    ((attachRSMA { industries := fun _ => none, sectors := fun _ => none }
        (fun _ => none) (fun _ => none) { symbol := "AAPL" }).industryAboveMA50 = none ∧
      (attachRSMA { industries := fun _ => none, sectors := fun _ => none }
        (fun _ => none) (fun _ => none) { symbol := "AAPL" }).industryPercentAboveMA50 = none) :=
  ⟨C9_trend_failure_isolation.1 "Semiconductors" [] [] "Software",
   C9_trend_failure_isolation.2.1 "Semiconductors" CompOutcome.timedOut
     CompOutcome.threw [] [] "Software" (by decide),
   C9_trend_failure_isolation.2.2.1 _ _ _ { symbol := "AAPL" } rfl⟩

/-- The moving-average fold is the sum of the closes. -/
lemma foldl_add_close (l : List Price) :
    ∀ a : ℚ, l.foldl (fun acc p => acc + p.close) a = a + (l.map (·.close)).sum := by
  induction l with
  | nil => intro a; simp
  | cons p t ih =>
      intro a
      rw [List.foldl_cons, ih]
      simp [add_assoc]

/-- `calculateMA` with period 50 on at least 50 prices is the trailing
50-sample simple moving average of the closes. -/
lemma calculateMA_eq_spec (ps : List Price) (h : 50 ≤ ps.length) :
    calculateMA ps 50 = some (specTrailingAvg50 (ps.map (·.close))) := by
  unfold calculateMA specTrailingAvg50
  rw [if_neg (not_lt.mpr h)]
  rw [foldl_add_close, zero_add, List.length_map, List.map_drop]
  norm_num

/-- The last close of a nonempty price list, through `map`. -/
lemma lastClose_eq (ps : List Price) (p : Price) (h : ps.getLast? = some p) :
    (ps.map (·.close)).getLastD 0 = p.close := by
  rw [List.getLastD_eq_getLast?, List.getLast?_map, h]
  rfl

/-- The basket sampling never exceeds 20 constituents. -/
lemma stocksToCheck_le20 (industryRecords allRecords : List ERec) :
    (stocksToCheckOf industryRecords allRecords).length ≤ 20 := by
  simp only [stocksToCheckOf]
  split
  · assumption
  · exact List.length_take_le _ _

/-- Claim C8: the industry-trend computation (a) on the proxy-instrument
(ETF) path yields `null` when the price fetch fails or returns fewer than
50 valid daily closes, and otherwise reports the trailing 50-sample simple
moving average of the closes with above-MA exactly when the most recent
close strictly exceeds that average; (b) on the basket path it selects at
most 20 constituent tickers sharing the industry label (the first 20 of the
dataset's matching records), requires at least 50 distinct dates (else
`null`), builds a per-date equal-weighted average over the tickers that
have a price on that date, and compares the same 50-sample moving average
to the latest basket value. -/
theorem C8_industry_trend :
    (∀ (fetch : String → Option (List Price)) (etf : String),
        fetch etf = none → calculateIndustryMA50FromETF fetch etf = none) ∧
    (∀ (fetch : String → Option (List Price)) (etf : String) (ps : List Price),
        fetch etf = some ps → ps.length < 50 →
        calculateIndustryMA50FromETF fetch etf = none) ∧
    (∀ (fetch : String → Option (List Price)) (etf : String) (ps : List Price),
        fetch etf = some ps → 50 ≤ ps.length →
        calculateIndustryMA50FromETF fetch etf = some
          { currentIndex := (ps.map (·.close)).getLastD 0,
            ma50 := specTrailingAvg50 (ps.map (·.close)),
            aboveMA := decide ((ps.map (·.close)).getLastD 0 >
              specTrailingAvg50 (ps.map (·.close))),
            percentAboveMA50 := ((ps.map (·.close)).getLastD 0 -
              specTrailingAvg50 (ps.map (·.close))) /
              specTrailingAvg50 (ps.map (·.close)) * 100,
            source := "ETF" }) ∧
    (∀ (industryRecords allRecords : List ERec),
        stocksToCheckOf industryRecords allRecords =
          (allIndustryStocksOf industryRecords allRecords).take 20) ∧
    (∀ (fetch : String → Option (List Price)) (industryRecords allRecords : List ERec),
        (basketDatesOf fetch industryRecords allRecords).length < 50 →
        calculateIndustryMA50FromStocks fetch industryRecords allRecords = none) ∧
    (∀ (fetch : String → Option (List Price)) (industryRecords allRecords : List ERec)
        (t : MAData),
        calculateIndustryMA50FromStocks fetch industryRecords allRecords = some t →
        50 ≤ (basketDatesOf fetch industryRecords allRecords).length ∧
        t.stocksUsed = some (stockPricesOf fetch industryRecords allRecords).length ∧
        (stockPricesOf fetch industryRecords allRecords).length ≤ 20 ∧
        t.totalStocks = some (allIndustryStocksOf industryRecords allRecords).length ∧
        t.source = "calculated" ∧
        t.ma50 = specTrailingAvg50
          ((industryIndexOf fetch industryRecords allRecords).map (·.close)) ∧
        t.currentIndex =
          ((industryIndexOf fetch industryRecords allRecords).map (·.close)).getLastD 0 ∧
        t.aboveMA = decide (t.currentIndex > t.ma50)) ∧
    (∀ (fetch : String → Option (List Price)) (industryRecords allRecords : List ERec)
        (e : Price),
        e ∈ industryIndexOf fetch industryRecords allRecords →
        contributorsAt (stockPricesOf fetch industryRecords allRecords) e.date ≠ [] ∧
        e.close =
          (contributorsAt (stockPricesOf fetch industryRecords allRecords) e.date).sum /
          ((contributorsAt (stockPricesOf fetch industryRecords allRecords) e.date).length : ℚ)) := by
  refine ⟨?_, ?_, ?_, ?_, ?_, ?_, ?_⟩
  · intro fetch etf h
    unfold calculateIndustryMA50FromETF
    rw [h]
  · intro fetch etf ps hf h50
    unfold calculateIndustryMA50FromETF
    simp only [hf]
    rw [if_pos h50]
  · intro fetch etf ps hf h50
    unfold calculateIndustryMA50FromETF
    simp only [hf]
    rw [if_neg (not_lt.mpr h50)]
    have hne : ps ≠ [] := by
      intro hc
      rw [hc] at h50
      simp at h50
    cases hL : ps.getLast? with
    | none => exact absurd (List.getLast?_eq_none_iff.mp hL) hne
    | some p =>
        rw [calculateMA_eq_spec ps h50, lastClose_eq ps p hL]
  · intro industryRecords allRecords
    simp only [stocksToCheckOf]
    split
    · rw [List.take_of_length_le (by assumption)]
    · rfl
  · intro fetch industryRecords allRecords h
    unfold calculateIndustryMA50FromStocks
    dsimp only
    split_ifs with h1 h2 h3 <;> rfl
  · intro fetch industryRecords allRecords t h
    unfold calculateIndustryMA50FromStocks at h
    dsimp only at h
    split_ifs at h with h1 h2 h3 h4 h5
    have hlen : 50 ≤ (basketDatesOf fetch industryRecords allRecords).length :=
      not_lt.mp h4
    have hilen : 50 ≤ (industryIndexOf fetch industryRecords allRecords).length :=
      not_lt.mp h5
    have hine : industryIndexOf fetch industryRecords allRecords ≠ [] := by
      intro hc
      rw [hc] at hilen
      simp at hilen
    cases hL : (industryIndexOf fetch industryRecords allRecords).getLast? with
    | none => exact absurd (List.getLast?_eq_none_iff.mp hL) hine
    | some p =>
        rw [calculateMA_eq_spec _ hilen, hL] at h
        have ht := (Option.some.inj h).symm
        subst ht
        refine ⟨hlen, rfl, ?_, rfl, rfl, rfl, (lastClose_eq _ p hL).symm, rfl⟩
        exact le_trans (List.length_filterMap_le _ _)
          (stocksToCheck_le20 industryRecords allRecords)
  · intro fetch industryRecords allRecords e he
    unfold industryIndexOf at he
    obtain ⟨d, _, heq⟩ := List.mem_filterMap.mp he
    by_cases hps : contributorsAt (stockPricesOf fetch industryRecords allRecords) d = []
    · rw [if_pos hps] at heq
      exact absurd heq (by simp)
    · rw [if_neg hps] at heq
      have he2 := Option.some.inj heq
      have hdate : e.date = d := by rw [← he2]
      have hclose : e.close =
          (contributorsAt (stockPricesOf fetch industryRecords allRecords) d).sum /
          ((contributorsAt (stockPricesOf fetch industryRecords allRecords) d).length : ℚ) := by
        rw [← he2]
      rw [hdate]
      exact ⟨hps, hclose⟩

/-- Witness for claim C8 at concrete inputs: a failed fetch yields `null`
on the ETF path, a 50-close history yields the moving-average comparison,
and a basket with no fetched histories (fewer than 50 distinct dates)
yields `null`. -/
theorem C8_witness :
    calculateIndustryMA50FromETF (fun _ => none) "SMH" = none ∧
    calculateIndustryMA50FromETF exFetch "SMH" = some
      { currentIndex := (exPrices.map (·.close)).getLastD 0,
        ma50 := specTrailingAvg50 (exPrices.map (·.close)),
        aboveMA := decide ((exPrices.map (·.close)).getLastD 0 >
          specTrailingAvg50 (exPrices.map (·.close))),
        percentAboveMA50 := ((exPrices.map (·.close)).getLastD 0 -
          specTrailingAvg50 (exPrices.map (·.close))) /
          specTrailingAvg50 (exPrices.map (·.close)) * 100,
        source := "ETF" } ∧
    calculateIndustryMA50FromStocks (fun _ => none)
      [{ symbol := "SMH", industry := "Semiconductors" }]
      [{ symbol := "SMH", industry := "Semiconductors" }] = none :=
  ⟨C8_industry_trend.1 (fun _ => none) "SMH" rfl,
   C8_industry_trend.2.2.1 exFetch "SMH" exPrices (by decide) (by decide),
   C8_industry_trend.2.2.2.2.1 (fun _ => none)
     [{ symbol := "SMH", industry := "Semiconductors" }]
     [{ symbol := "SMH", industry := "Semiconductors" }] (by decide)⟩

/-- A digit is not whitespace. -/
lemma ws_of_digit (c : Char) (h : c.isDigit = true) : isWS c = false := by
  rw [Bool.eq_false_iff]
  intro hws
  simp only [isWS, Bool.or_eq_true, decide_eq_true_eq] at hws
  rcases hws with ((h1 | h1) | h1) | h1 <;> subst h1 <;> exact absurd h (by decide)

/-- A letter is not whitespace. -/
lemma ws_of_alpha (c : Char) (h : c.isAlpha = true) : isWS c = false := by
  rw [Bool.eq_false_iff]
  intro hws
  simp only [isWS, Bool.or_eq_true, decide_eq_true_eq] at hws
  rcases hws with ((h1 | h1) | h1) | h1 <;> subst h1 <;> exact absurd h (by decide)

/-- Trimming fixes a list whose first and last characters are not
whitespace. -/
lemma jsTrim_fix (l : List Char)
    (hhead : ∀ c, l.head? = some c → isWS c = false)
    (hlast : ∀ c, l.getLast? = some c → isWS c = false) : jsTrim l = l := by
  unfold jsTrim
  have h1 : l.dropWhile isWS = l := by
    cases l with
    | nil => rfl
    | cons a t =>
        rw [List.dropWhile_cons, if_neg]
        rw [hhead a rfl]
        simp
  rw [h1]
  have h2 : l.reverse.dropWhile isWS = l.reverse := by
    cases hr : l.reverse with
    | nil => rfl
    | cons a t =>
        rw [List.dropWhile_cons, if_neg]
        have : l.getLast? = some a := by
          rw [← List.head?_reverse, hr]
          rfl
        rw [hlast a this]
        simp
  rw [h2, List.reverse_reverse]

/-- The one-step equation of the `normalizeRecords` loop. -/
lemma normGo_cons (asOf : String) (j : RawItem) (rest : List RawItem) :
    normGo asOf (j :: rest) =
      (if toStringV j.symbol = "" then normGo (asOfStep asOf j) rest
       else mkRecord (asOfStep asOf j) j :: normGo (asOfStep asOf j) rest) := rfl

/-- The records of one appended item, with the carried-forward date folded
over the prefix. -/
lemma normGo_append : ∀ (pre : List RawItem) (asOf : String) (i : RawItem),
    normGo asOf (pre ++ [i]) =
      normGo asOf pre ++ normGo (pre.foldl asOfStep asOf) [i] := by
  intro pre
  induction pre with
  | nil => intro asOf i; rfl
  | cons j rest ih =>
      intro asOf i
      rw [List.cons_append, normGo_cons, normGo_cons, List.foldl_cons]
      by_cases hs : toStringV j.symbol = ""
      · rw [if_pos hs, if_pos hs, ih]
      · rw [if_neg hs, if_neg hs, ih, List.cons_append]

/-- The emitted symbols are exactly the nonempty (trimmed) symbols of the
feed, in order: items lacking a symbol are discarded, all others kept. -/
lemma normGo_symbols : ∀ (raw : List RawItem) (asOf : String),
    (normGo asOf raw).map (fun r => r.symbol) =
      raw.filterMap (fun i =>
        if toStringV i.symbol = "" then none else some (toStringV i.symbol)) := by
  intro raw
  induction raw with
  | nil => intro asOf; rfl
  | cons i rest ih =>
      intro asOf
      rw [normGo_cons, List.filterMap_cons]
      by_cases hs : toStringV i.symbol = ""
      · rw [if_pos hs, if_pos hs, ih]
      · rw [if_neg hs, if_neg hs, List.map_cons, ih]
        rfl

/-- Claim C6: feed normalization (a) keeps exactly the items with a
nonempty symbol (their trimmed symbol, in feed order) and discards the
rest; (b) turns missing numeric fields into `null`, turns fields whose
trimmed text does not parse as a finite decimal number into `null`, and
produces a numeric value only by parsing the field's text (so a missing or
malformed field can never surface as `NaN` or a fabricated `0`); (c)
normalizes dates: a `YYYY-MM-DD` string passes through unchanged and a
`D Mon YYYY` string (one- or two-digit day) becomes `YYYY-MM-DD`; and (d)
an item that omits its date receives the most recently seen parsable date
from earlier in the feed. -/
theorem C6_normalize_records :
    (∀ (raw : List RawItem),
        (normalizeRecords raw).map (fun r => r.symbol) =
          raw.filterMap (fun i =>
            if toStringV i.symbol = "" then none else some (toStringV i.symbol))) ∧
    toNumberV none = none ∧
    (∀ s : String, jsNumberQ (jsTrimS s) = none → toNumberV (some s) = none) ∧
    (∀ (v : Option String) (q : ℚ), toNumberV v = some q →
        ∃ s, v = some s ∧ jsTrimS s ≠ "" ∧ jsNumberQ (jsTrimS s) = some q) ∧
    (∀ a b c d f g i j : Char, a.isDigit = true → b.isDigit = true →
        c.isDigit = true → d.isDigit = true → f.isDigit = true →
        g.isDigit = true → i.isDigit = true → j.isDigit = true →
        parseDateChars [a, b, c, d, '-', f, g, '-', i, j] =
          [a, b, c, d, '-', f, g, '-', i, j]) ∧
    (∀ (d1 m1 m2 m3 y1 y2 y3 y4 : Char) (mm : List Char),
        d1.isDigit = true → m1.isAlpha = true → m2.isAlpha = true →
        m3.isAlpha = true → y1.isDigit = true → y2.isDigit = true →
        y3.isDigit = true → y4.isDigit = true →
        monthToNum [m1, m2, m3] = some mm →
        parseDateChars [d1, ' ', m1, m2, m3, ' ', y1, y2, y3, y4] =
          [y1, y2, y3, y4] ++ '-' :: (mm ++ '-' :: ['0', d1])) ∧
    (∀ (d1 d2 m1 m2 m3 y1 y2 y3 y4 : Char) (mm : List Char),
        d1.isDigit = true → d2.isDigit = true → m1.isAlpha = true →
        m2.isAlpha = true → m3.isAlpha = true → y1.isDigit = true →
        y2.isDigit = true → y3.isDigit = true → y4.isDigit = true →
        monthToNum [m1, m2, m3] = some mm →
        parseDateChars [d1, d2, ' ', m1, m2, m3, ' ', y1, y2, y3, y4] =
          [y1, y2, y3, y4] ++ '-' :: (mm ++ '-' :: [d1, d2])) ∧
    (∀ (pre : List RawItem) (i : RawItem), i.date = none →
        toStringV i.symbol ≠ "" →
        normalizeRecords (pre ++ [i]) =
          normalizeRecords pre ++ [mkRecord (specLastDate pre) i]) ∧
    (∀ (asOf : String) (i : RawItem), i.date = none →
        (mkRecord asOf i).date = asOf) := by
  refine ⟨fun raw => normGo_symbols raw "", rfl, ?_, ?_, ?_, ?_, ?_, ?_, ?_⟩
  · intro s h
    unfold toNumberV toStringV
    by_cases ht : jsTrimS s = ""
    · rw [if_pos ht]
    · rw [if_neg ht]
      exact h
  · intro v q h
    cases v with
    | none => exact absurd h (by simp [toNumberV, toStringV])
    | some s =>
        unfold toNumberV toStringV at h
        by_cases ht : jsTrimS s = ""
        · rw [if_pos ht] at h
          exact absurd h (by simp)
        · rw [if_neg ht] at h
          exact ⟨s, rfl, ht, h⟩
  · intro a b c d f g i j ha hb hc hd hf hg hi hj
    have htrim : jsTrim [a, b, c, d, '-', f, g, '-', i, j] =
        [a, b, c, d, '-', f, g, '-', i, j] := by
      refine jsTrim_fix _ ?_ ?_
      · intro x hx
        have hxa : x = a := by injection hx with h2; exact h2.symm
        subst hxa
        exact ws_of_digit _ ha
      · intro x hx
        have hxa : x = j := by
          have hval : [a, b, c, d, '-', f, g, '-', i, j].getLast? = some j := rfl
          rw [hval] at hx
          injection hx with h2
          exact h2.symm
        subst hxa
        exact ws_of_digit _ hj
    unfold parseDateChars
    rw [htrim, if_neg (by simp)]
    have hiso : isoShape [a, b, c, d, '-', f, g, '-', i, j] = true := by
      simp [isoShape, ha, hb, hc, hd, hf, hg, hi, hj]
    rw [if_pos hiso]
  · intro d1 m1 m2 m3 y1 y2 y3 y4 mm hd1 hm1 hm2 hm3 hy1 hy2 hy3 hy4 hmon
    have hwd1 := ws_of_digit _ hd1
    have hwy4 := ws_of_digit _ hy4
    have htrim : jsTrim [d1, ' ', m1, m2, m3, ' ', y1, y2, y3, y4] =
        [d1, ' ', m1, m2, m3, ' ', y1, y2, y3, y4] := by
      refine jsTrim_fix _ ?_ ?_
      · intro x hx
        have hxa : x = d1 := by injection hx with h2; exact h2.symm
        subst hxa
        exact hwd1
      · intro x hx
        have hxa : x = y4 := by
          have hval : [d1, ' ', m1, m2, m3, ' ', y1, y2, y3, y4].getLast? = some y4 := rfl
          rw [hval] at hx
          injection hx with h2
          exact h2.symm
        subst hxa
        exact hwy4
    unfold parseDateChars
    rw [htrim, if_neg (by simp)]
    have hiso : isoShape [d1, ' ', m1, m2, m3, ' ', y1, y2, y3, y4] = false := by
      have hsp : (' ' : Char).isDigit = false := by decide
      simp [isoShape, hsp]
    rw [hiso]
    have hspd : (' ' : Char).isDigit = false := by decide
    have hspa : (' ' : Char).isAlpha = false := by decide
    have hwsp : isWS ' ' = true := by decide
    have hmatch : dmyMatch [d1, ' ', m1, m2, m3, ' ', y1, y2, y3, y4] =
        some ([d1], [m1, m2, m3], [y1, y2, y3, y4]) := by
      unfold dmyMatch
      simp [List.takeWhile, hd1, hspd, hwsp,
        ws_of_alpha _ hm1, ws_of_alpha _ hm2, ws_of_alpha _ hm3,
        hm1, hm2, hm3, hspa, ws_of_digit _ hy1,
        hy1, hy2, hy3, hy4, List.drop]
    rw [hmatch]
    simp [hmon, padDay]
  · intro d1 d2 m1 m2 m3 y1 y2 y3 y4 mm hd1 hd2 hm1 hm2 hm3 hy1 hy2 hy3 hy4 hmon
    have hwd1 := ws_of_digit _ hd1
    have hwy4 := ws_of_digit _ hy4
    have htrim : jsTrim [d1, d2, ' ', m1, m2, m3, ' ', y1, y2, y3, y4] =
        [d1, d2, ' ', m1, m2, m3, ' ', y1, y2, y3, y4] := by
      refine jsTrim_fix _ ?_ ?_
      · intro x hx
        have hxa : x = d1 := by injection hx with h2; exact h2.symm
        subst hxa
        exact hwd1
      · intro x hx
        have hxa : x = y4 := by
          have hval : [d1, d2, ' ', m1, m2, m3, ' ', y1, y2, y3, y4].getLast? = some y4 := rfl
          rw [hval] at hx
          injection hx with h2
          exact h2.symm
        subst hxa
        exact hwy4
    unfold parseDateChars
    rw [htrim, if_neg (by simp)]
    have hiso : isoShape [d1, d2, ' ', m1, m2, m3, ' ', y1, y2, y3, y4] = false := rfl
    rw [hiso]
    have hspd : (' ' : Char).isDigit = false := by decide
    have hspa : (' ' : Char).isAlpha = false := by decide
    have hwsp : isWS ' ' = true := by decide
    have hmatch : dmyMatch [d1, d2, ' ', m1, m2, m3, ' ', y1, y2, y3, y4] =
        some ([d1, d2], [m1, m2, m3], [y1, y2, y3, y4]) := by
      unfold dmyMatch
      simp [List.takeWhile, hd1, hd2, hspd, hwsp,
        ws_of_alpha _ hm1, ws_of_alpha _ hm2, ws_of_alpha _ hm3,
        hm1, hm2, hm3, hspa, ws_of_digit _ hy1,
        hy1, hy2, hy3, hy4, List.drop]
    rw [hmatch]
    simp [hmon, padDay]
  · intro pre i hdate hsym
    unfold normalizeRecords
    rw [normGo_append pre "" i, normGo_cons]
    have hstep : asOfStep (pre.foldl asOfStep "") i = pre.foldl asOfStep "" := by
      unfold asOfStep
      rw [hdate]
    rw [if_neg hsym, hstep]
    rfl
  · intro asOf i hdate
    unfold mkRecord
    rw [hdate]
    simp only
    rw [if_pos (by decide)]

/-- Concrete instantiation of the C6 normalization theorem: the text
`abc` yields a `null` number, `2 Jan 2006` becomes `2006-01-02`,
`14 Mar 2025` becomes `2025-03-14`, and `2025-03-14` passes through. -/
theorem C6_witness :
    toNumberV (some "abc") = none ∧
    parseDateChars ['2', ' ', 'J', 'a', 'n', ' ', '2', '0', '0', '6'] =
      ['2', '0', '0', '6', '-', '0', '1', '-', '0', '2'] ∧
    parseDateChars ['1', '4', ' ', 'M', 'a', 'r', ' ', '2', '0', '2', '5'] =
      ['2', '0', '2', '5', '-', '0', '3', '-', '1', '4'] ∧
    parseDateChars ['2', '0', '2', '5', '-', '0', '3', '-', '1', '4'] =
      ['2', '0', '2', '5', '-', '0', '3', '-', '1', '4'] := by
  refine ⟨?_, ?_, ?_, ?_⟩
  · exact C6_normalize_records.2.2.1 "abc" (by decide)
  · exact C6_normalize_records.2.2.2.2.2.1 '2' 'J' 'a' 'n' '2' '0' '0' '6'
      ['0', '1'] (by decide) (by decide) (by decide) (by decide) (by decide)
      (by decide) (by decide) (by decide) (by decide)
  · exact C6_normalize_records.2.2.2.2.2.2.1 '1' '4' 'M' 'a' 'r' '2' '0' '2' '5'
      ['0', '3'] (by decide) (by decide) (by decide) (by decide) (by decide)
      (by decide) (by decide) (by decide) (by decide) (by decide)
  · exact C6_normalize_records.2.2.2.2.1 '2' '0' '2' '5' '0' '3' '1' '4'
      (by decide) (by decide) (by decide) (by decide) (by decide) (by decide)
      (by decide) (by decide)

/-- Membership after `Array.from(new Set(xs))` implies membership before. -/
lemma firstDedup_subset_aux : ∀ (l acc : List String) (t : String),
    t ∈ l.foldl (fun acc x => if x ∈ acc then acc else acc ++ [x]) acc →
    t ∈ acc ∨ t ∈ l := by
  intro l
  induction l with
  | nil => intro acc t h; exact Or.inl h
  | cons x xs ih =>
      intro acc t h
      simp only [List.foldl_cons] at h
      by_cases hx : x ∈ acc
      · rw [if_pos hx] at h
        rcases ih _ _ h with h1 | h1
        · exact Or.inl h1
        · exact Or.inr (List.mem_cons_of_mem _ h1)
      · rw [if_neg hx] at h
        rcases ih _ _ h with h1 | h1
        · rcases List.mem_append.mp h1 with h2 | h2
          · exact Or.inl h2
          · have ht : t = x := by simpa using h2
            exact Or.inr (ht ▸ List.mem_cons_self _ _)
        · exact Or.inr (List.mem_cons_of_mem _ h1)

/-- Membership in `firstDedup l` implies membership in `l`. -/
lemma mem_firstDedup {t : String} {l : List String} (h : t ∈ firstDedup l) :
    t ∈ l := by
  rcases firstDedup_subset_aux l [] t h with h1 | h1
  · exact absurd h1 (List.not_mem_nil t)
  · exact h1

/-- Every string emitted by the ticker-column extraction step (normalize
each row's cell, drop empties, deduplicate) is nonempty. -/
lemma tickers_mem_ne_empty (rows : List RowObj) (name : String) (t : String)
    (h : t ∈ firstDedup (rows.filterMap (fun row =>
      let c := normalizeCell (rowGet row name)
      if c = "" then none else some c))) : t ≠ "" := by
  have h2 := mem_firstDedup h
  rcases List.mem_filterMap.mp h2 with ⟨row, _, hrow⟩
  simp only at hrow
  by_cases he : normalizeCell (rowGet row name) = ""
  · rw [if_pos he] at hrow
    exact absurd hrow (by simp)
  · rw [if_neg he] at hrow
    injection hrow with h3
    rw [← h3]
    exact he

/-- Claim C7: CSV ticker extraction is total in this embedding (it is a
plain function, so no input makes it throw); on empty input — both parse
passes empty — it returns an empty column list, ticker column index `0`,
empty column name and an empty ticker set; column detection over no
columns yields the best-guess index `0`; and every ticker it ever returns
is a nonempty normalized candidate, so an input with no usable data yields
an empty ticker set rather than an error. -/
theorem C7_csv_safety :
    parseCsvForTickers [] [] =
      { columns := [], tickerColumnIndex := 0, tickerColumnName := "",
        tickers := [] } ∧
    detectTickerColumnIndex [] [] = 0 ∧
    (∀ (p1 : List RowObj) (p2 : List (List (Option String))) (t : String),
        t ∈ (parseCsvForTickers p1 p2).tickers → t ≠ "") := by
  refine ⟨rfl, rfl, ?_⟩
  intro p1 p2 t h
  exact tickers_mem_ne_empty _ _ t h

/-- Concrete instantiation of the C7 safety theorem: a one-row parse with
a `Ticker` column holding ` aapl ` yields the ticker `AAPL`, which is
nonempty. -/
theorem C7_witness :
    "AAPL" ∈ (parseCsvForTickers [[("Ticker", some " aapl ")]] []).tickers ∧
    "AAPL" ≠ "" :=
  ⟨by decide, C7_csv_safety.2.2 [[("Ticker", some " aapl ")]] [] "AAPL" (by decide)⟩

/-- Claim C1 (code bug): an enrich request of `[AAPL, ZZZZZ]` against a
dataset containing only `AAPL` — exactly the claim's example, where
`missingTickers` would be `["ZZZZZ"]` — does not return a normal result:
the `missingTickers.map` callback of lines 485-494 reads `finvizData`,
which is only declared inside the finviz-branch `try` block, so the
operation throws a `ReferenceError` and the request fails whenever a
requested ticker is absent from the dataset. -/
theorem C1_missing_tickers_throw :
    fetchSctrForTickers ["AAPL", "ZZZZZ"] IndustrySource.stockcharts
      [{ symbol := "AAPL", SCTR := some 71, industry := "Semiconductors",
         sector := "Technology" }]
      (.ok (fun _ => none)) (.ok (fun _ => none)) =
    .error (.referenceError "finvizData") := by
  rfl

/-- Claim C5, counterexample: on the input `NASDAQ: AAPL` the implementation
yields `AAPL` (it trims the substring kept after the last colon before
validating), while the pipeline exactly as the claim words it — with no trim
after the colon step — carries the leading space into the regex test and
rejects, yielding the empty result.  Hence the claimed step sequence does
not describe the code. -/
theorem C5_counterexample :
    normalizeTickerCandidate "NASDAQ: AAPL".data = "AAPL".data ∧
    specOrigPipeline "NASDAQ: AAPL".data = [] ∧
    normalizeTickerCandidate "NASDAQ: AAPL".data ≠
      specOrigPipeline "NASDAQ: AAPL".data := by
  refine ⟨by decide, by decide, by decide⟩

/-- Claim C5 (amended): for every input string, ticker-candidate
normalization equals the claimed pipeline amended so that the substring
kept after the last colon is trimmed again before the uppercase/validation
steps; in particular `NASDAQ:AAPL ` normalizes to `AAPL`, `TICKER` is
rejected (empty result), and `AAPL"X` normalizes to `AAPL`. -/
theorem C5_amended :
    (∀ l : List Char, normalizeTickerCandidate l = specAmendedPipeline l) ∧
    normalizeTickerCandidate "NASDAQ:AAPL ".data = "AAPL".data ∧
    normalizeTickerCandidate "TICKER".data = [] ∧
    normalizeTickerCandidate ("AAPL".data ++ dq :: "X".data) = "AAPL".data := by
  refine ⟨?_, by decide, by decide, by decide⟩
  intro l
  unfold normalizeTickerCandidate specAmendedPipeline
  cases hp : preClean l with
  | none => rfl
  | some s =>
      simp only
      by_cases hcolon : ':' ∈ s
      · by_cases hsuf : afterLastColon s = []
        · rw [if_neg (by simp [hsuf]), if_pos hcolon, hsuf]
          have : jsTrim ([] : List Char) = [] := by decide
          rw [this, finishCand_nil, finishCand_of_colon s hcolon]
        · rw [if_pos ⟨hcolon, hsuf⟩, if_pos hcolon]
      · rw [if_neg (by simp [hcolon]), if_neg hcolon]

end StkDetails
